import Mathlib

/-!
# Repetier-Firmware: software two-wire bus (`SoftPotManager.h`)

A shallow embedding of the bit-banged multi-channel two-wire bus manager of
`src/ArduinoAVR/Repetier/SoftPotManager.h`.

The C++ class talks to the outside world through the pin capability
(`setDirection`, `setValue`, `getValue`) and the busy-wait `_delay_us`.  Here
every such call appends one `Event` to a trace, and `getValue` takes the level
it returns from a stream of levels supplied by the environment (the peer on the
data line).  All operations are state-passing functions on `Bus`.

Bytes (`uint8_t`) are natural numbers; the places where the C++ narrows an `int`
back to `uint8_t` carry an explicit `% 256`.  A channel index is decremented only
after it was tested to be non-zero, so that subtraction never wraps.
-/

namespace SoftPot

/-! ## Pins, events and the bus state -/

/-- A pin identity: the shared clock pin `SCL_PIN`, or one of the data pins of the
parameter pack `SDA_PINS...`, named by a number. -/
inductive Pin where
  | scl
  | sda (id : Nat)
  deriving DecidableEq, Repr

/-- One call of the pin capability or of the delay primitive, as seen from outside. -/
inductive Event where
  /-- A call `P::setValue(level)`. -/
  | write (p : Pin) (level : Bool)
  /-- A call `P::setDirection(output)`. -/
  | direction (p : Pin) (output : Bool)
  /-- A call `P::getValue()`, together with the level that was read. -/
  | sample (p : Pin) (level : Bool)
  /-- A call `_delay_us(I2C_DELAY_USEC)`. -/
  | wait
  deriving DecidableEq, Repr

/-- The state threaded through every operation: the events performed so far (oldest
first) and the levels which the environment will present at the coming calls of
`getValue` (`line 0` at the next call, `line 1` at the one after, ...). -/
structure Bus where
  trace : List Event
  line : Nat → Bool

/-- The call `P::setValue(level)`. -/
def setValue (p : Pin) (level : Bool) (s : Bus) : Bus :=
  { s with trace := s.trace ++ [Event.write p level] }

/-- The call `P::setDirection(output)`. -/
def setDirection (p : Pin) (output : Bool) (s : Bus) : Bus :=
  { s with trace := s.trace ++ [Event.direction p output] }

/-- The call `P::getValue()`: returns the next level of the line and consumes it. -/
def getValue (p : Pin) (s : Bus) : Bool × Bus :=
  (s.line 0,
   { trace := s.trace ++ [Event.sample p (s.line 0)], line := fun n => s.line (n + 1) })

/-- The private `delay()`, that is `_delay_us(I2C_DELAY_USEC)`. -/
def delay (s : Bus) : Bus :=
  { s with trace := s.trace ++ [Event.wait] }

/-- Modelled from the spec: the constant `I2C_WRITE`, which `SoftPotManager.h` uses but
does not define; the spec gives the read/write bit as 0 for write. -/
def I2C_WRITE : Nat := 0

/-- Modelled from the spec: the constant `I2C_READ`, which `SoftPotManager.h` uses but
does not define; the spec gives the read/write bit as 1 for read. -/
def I2C_READ : Nat := 1

/-! ## The private members of one chain level (they act on that level's `SDA_PIN`) -/

/-- The loop of `write(uint8_t value)`:
`for (uint8_t m = 0X80; m != 0; m >>= 1) { SDA_PIN::setValue((m & value) != 0);
delay(); SCL_PIN::setValue(true); delay(); SCL_PIN::setValue(false); }`,
entered with the current mask `m`. -/
def writeLoop (sda : Nat) (value : Nat) (m : Nat) (s : Bus) : Bus :=
  if m = 0 then s
  else
    let s := setValue (Pin.sda sda) (decide (m &&& value ≠ 0)) s
    let s := delay s
    let s := setValue Pin.scl true s
    let s := delay s
    let s := setValue Pin.scl false s
    writeLoop sda value (m >>> 1) s
termination_by m
decreasing_by
  simp only [Nat.shiftRight_succ, Nat.shiftRight_zero]
  omega

/-- The private `bool write(uint8_t value)` of the level owning data pin `sda`. -/
def writeSDA (sda : Nat) (value : Nat) (s : Bus) : Bool × Bus :=
  let s := writeLoop sda value 0x80 s
  -- get Ack or Nak
  let s := setValue (Pin.sda sda) true s
  let s := setDirection (Pin.sda sda) false s
  let s := setValue Pin.scl true s
  let s := delay s
  let r := getValue (Pin.sda sda) s
  let value := r.1.toNat
  let s := r.2
  let s := setValue Pin.scl false s
  let s := setDirection (Pin.sda sda) true s
  (decide (value = 0), s)

/-- The loop of `read(bool last)`:
`for (uint8_t m = 0x80; m != 0; m >>= 1) { SCL_PIN::setValue(true); delay();
b |= SDA_PIN::getValue() ? m : 0; SCL_PIN::setValue(false); delay(); }`,
entered with the current mask `m` and accumulator `b`. -/
def readLoop (sda : Nat) (m : Nat) (b : Nat) (s : Bus) : Nat × Bus :=
  if m = 0 then (b, s)
  else
    let s := setValue Pin.scl true s
    let s := delay s
    let r := getValue (Pin.sda sda) s
    let b := b ||| (if r.1 then m else 0)
    let s := r.2
    let s := setValue Pin.scl false s
    let s := delay s
    readLoop sda (m >>> 1) b s
termination_by m
decreasing_by
  simp only [Nat.shiftRight_succ, Nat.shiftRight_zero]
  omega

/-- The private `uint8_t read(bool last)` of the level owning data pin `sda`. -/
def readSDA (sda : Nat) (last : Bool) (s : Bus) : Nat × Bus :=
  -- make sure pullup enabled
  let s := setValue (Pin.sda sda) true s
  let s := setDirection (Pin.sda sda) false s
  -- read byte
  let r := readLoop sda 0x80 0 s
  let b := r.1
  let s := r.2
  -- send Ack or Nak
  let s := setDirection (Pin.sda sda) true s
  let s := setValue (Pin.sda sda) last s
  let s := setValue Pin.scl true s
  let s := delay s
  let s := setValue Pin.scl false s
  let s := setValue (Pin.sda sda) true s
  (b, s)

/-- The private `uint8_t start(uint8_t addressRW)`; the `bool` of `write` is
converted to `uint8_t`. -/
def startSDA (sda : Nat) (addressRW : Nat) (s : Bus) : Nat × Bus :=
  let s := setValue Pin.scl false s
  let r := writeSDA sda addressRW s
  (r.1.toNat, r.2)

/-- The private `void stop()`. -/
def stopSDA (s : Bus) : Bus :=
  let s := delay s
  let s := setValue Pin.scl true s
  delay s

/-! ## The terminal class `SoftPotManager<SCL_PIN>` (a chain without data pins) -/

namespace Terminal

/-- Member `void init(bool) const {}`. -/
def init (_isFirst : Bool) (s : Bus) : Bus := s

/-- Member `bool start(uint8_t, uint8_t, bool) const { return false; }`. -/
def start (_channel _addressRW : Nat) (_isFirst : Bool) (s : Bus) : Bool × Bus := (false, s)

/-- Member `void stop(uint8_t, bool) const {}`. -/
def stop (_channel : Nat) (_isFirst : Bool) (s : Bus) : Bus := s

/-- Member `uint8_t read(uint8_t, bool) const { return 0; }`. -/
def read (_channel : Nat) (_last : Bool) (s : Bus) : Nat × Bus := (0, s)

/-- Member `bool write(uint8_t, uint8_t) const { return false; }`. -/
def write (_channel _value : Nat) (s : Bus) : Bool × Bus := (false, s)

/-- Member `void setSDA(bool) const {}`. -/
def setSDA (_value : Bool) (s : Bus) : Bus := s

end Terminal

/-! ## The public members of a chain

A chain `SoftPotManager<SCL_PIN, SDA_PIN, OTHER_SDA_PINS...>` is the list of its data
pins, first pin first; `rest()` is the tail of the list and the empty list is the
terminal class. -/

/-- Member `void init(bool isFirst = true)`. -/
def init : List Nat → Bool → Bus → Bus
  | [], isFirst, s => Terminal.init isFirst s
  | sda :: rest, isFirst, s =>
    let s := init rest false s
    let s := setDirection (Pin.sda sda) true s
    let s := setValue (Pin.sda sda) true s
    if isFirst then
      let s := setDirection Pin.scl true s
      let s := setValue Pin.scl true s
      delay s
    else s

/-- Member `void setSDA(bool value)`. -/
def setSDA : List Nat → Bool → Bus → Bus
  | [], value, s => Terminal.setSDA value s
  | sda :: rest, value, s =>
    let s := setValue (Pin.sda sda) value s
    setSDA rest value s

/-- Member `bool write(uint8_t channel, uint8_t value)`. -/
def write : List Nat → Nat → Nat → Bus → Bool × Bus
  | [], channel, value, s => Terminal.write channel value s
  | sda :: rest, channel, value, s =>
    if channel = 0 then writeSDA sda value s
    else write rest (channel - 1) value s

/-- Member `uint8_t read(uint8_t channel, bool last)`. -/
def read : List Nat → Nat → Bool → Bus → Nat × Bus
  | [], channel, last, s => Terminal.read channel last s
  | sda :: rest, channel, last, s =>
    if channel = 0 then readSDA sda last s
    else read rest (channel - 1) last s

/-- Member `uint8_t start(uint8_t channel, uint8_t addressRW, bool isFirst = true)`; the
terminal class returns a `bool`, which the calling level converts to `uint8_t`. -/
def start : List Nat → Nat → Nat → Bool → Bus → Nat × Bus
  | [], channel, addressRW, isFirst, s =>
    let r := Terminal.start channel addressRW isFirst s
    (r.1.toNat, r.2)
  | sda :: rest, channel, addressRW, isFirst, s =>
    let s := if isFirst then setSDA (sda :: rest) false s else s
    if channel = 0 then startSDA sda addressRW s
    else start rest (channel - 1) addressRW false s

/-- Member `void stop(uint8_t channel, bool isFirst = true)`. -/
def stop : List Nat → Nat → Bool → Bus → Bus
  | [], channel, isFirst, s => Terminal.stop channel isFirst s
  | sda :: rest, channel, isFirst, s =>
    let s := if channel = 0 then stopSDA s else stop rest (channel - 1) false s
    if isFirst then
      let s := setSDA (sda :: rest) true s
      delay s
    else s

/-- Member `uint8_t restart(uint8_t channel, uint8_t addressRW)`.  The terminal class declares
no `restart`, so the recursion has no result once it runs past the last data pin. -/
def restart : List Nat → Nat → Nat → Bus → Option (Nat × Bus)
  | [], _, _, _ => none
  | sda :: rest, channel, addressRW, s =>
    if channel = 0 then
      let s := setValue Pin.scl true s
      some (startSDA sda addressRW s)
    else restart rest (channel - 1) addressRW s

/-- Member `bool writeByte(uint8_t channel, uint8_t address, uint8_t v)`; the `int` value of
`address | I2C_WRITE` is narrowed to the `uint8_t` parameter of `start`. -/
def writeByte (chain : List Nat) (channel address v : Nat) (s : Bus) : Bool × Bus :=
  let r := start chain channel ((address ||| I2C_WRITE) % 256) true s
  let s := r.2
  let w := write chain channel v s
  let ret := w.1
  let s := w.2
  let s := stop chain channel true s
  (ret, s)

/-- Member `uint8_t readByte(uint8_t channel, uint8_t address)`. -/
def readByte (chain : List Nat) (channel address : Nat) (s : Bus) : Nat × Bus :=
  let r := start chain channel ((address ||| I2C_READ) % 256) true s
  let s := r.2
  let w := read chain channel true s
  let ret := w.1
  let s := w.2
  let s := stop chain channel true s
  (ret, s)

/-! ## Observing a trace -/

/-- The events an operation appended when it took the bus from `before` to `after`. -/
def emitted (before after : Bus) : List Event :=
  after.trace.drop before.trace.length

/-- The pin an event concerns, if any. -/
def Event.pin? : Event → Option Pin
  | Event.write p _ => some p
  | Event.direction p _ => some p
  | Event.sample p _ => some p
  | Event.wait => none

/-- Whether the event is a call of `getValue`. -/
def Event.isSample : Event → Bool
  | Event.sample _ _ => true
  | _ => false

/-- The clock pulses of a trace: for every event that drives the clock high, the events
that follow it up to the next event that drives the clock low (or to the end). -/
def pulses : List Event → List (List Event)
  | [] => []
  | e :: tr =>
    if e = Event.write Pin.scl true then
      tr.takeWhile (fun x => decide (x ≠ Event.write Pin.scl false)) :: pulses tr
    else pulses tr

/-- Modelled from the spec: the state a pin of the pin capability keeps (the header
`fastio_template.h` is not part of the sources): the direction and the level it was
last given. -/
structure PinState where
  output : Bool
  level : Bool
  deriving DecidableEq, Repr

/-- Modelled from the spec: the effect of one event on the pins; `setDirection` and
`setValue` change the addressed pin only, `getValue` and the delay change nothing. -/
def Event.apply (e : Event) (ps : Pin → PinState) : Pin → PinState :=
  match e with
  | Event.write p level => fun q => if q = p then { ps q with level := level } else ps q
  | Event.direction p output => fun q => if q = p then { ps q with output := output } else ps q
  | Event.sample _ _ => ps
  | Event.wait => ps

/-- The pins after the events of a trace, starting from the pins `ps`. -/
def replay : List Event → (Pin → PinState) → Pin → PinState
  | [], ps => ps
  | e :: tr, ps => replay tr (e.apply ps)

/-- The state of pin `p` at each event that drives the clock high. -/
def atRises (p : Pin) : List Event → (Pin → PinState) → List PinState
  | [], _ => []
  | e :: tr, ps =>
    if e = Event.write Pin.scl true then ps p :: atRises p tr (e.apply ps)
    else atRises p tr (e.apply ps)

/-- The pins which the events of a trace write, re-direct or sample, in order. -/
def touched (evs : List Event) : List Pin :=
  evs.filterMap Event.pin?

/-- The bus after further events that take no sample. -/
def Bus.after (s : Bus) (evs : List Event) : Bus :=
  { s with trace := s.trace ++ evs }

/-- The five events by which `write(uint8_t value)` clocks out one data bit. -/
def bitOut (sda : Nat) (b : Bool) : List Event :=
  [Event.write (Pin.sda sda) b, Event.wait, Event.write Pin.scl true, Event.wait,
   Event.write Pin.scl false]

/-- The five events by which `read(bool last)` clocks in one data bit. -/
def bitIn (sda : Nat) (b : Bool) : List Event :=
  [Event.write Pin.scl true, Event.wait, Event.sample (Pin.sda sda) b,
   Event.write Pin.scl false, Event.wait]

/-! ## The events of the byte primitives, written out -/

/-- The events of one `write(uint8_t value)` on data pin `sda` when the level sampled
for the acknowledgment is `ack`: eight data bits, then the acknowledgment pulse. -/
def byteOut (sda v : Nat) (ack : Bool) : List Event :=
  bitOut sda (v.testBit 7) ++ bitOut sda (v.testBit 6) ++ bitOut sda (v.testBit 5) ++
  bitOut sda (v.testBit 4) ++ bitOut sda (v.testBit 3) ++ bitOut sda (v.testBit 2) ++
  bitOut sda (v.testBit 1) ++ bitOut sda (v.testBit 0) ++
  [Event.write (Pin.sda sda) true, Event.direction (Pin.sda sda) false,
   Event.write Pin.scl true, Event.wait, Event.sample (Pin.sda sda) ack,
   Event.write Pin.scl false, Event.direction (Pin.sda sda) true]

/-- The events of one `read(bool last)` on data pin `sda` when the levels sampled are
`line 0, ..., line 7`: the release of the pin, eight data bits, then the pulse that
answers with `last`. -/
def byteIn (sda : Nat) (last : Bool) (line : Nat → Bool) : List Event :=
  [Event.write (Pin.sda sda) true, Event.direction (Pin.sda sda) false] ++
  bitIn sda (line 0) ++ bitIn sda (line 1) ++ bitIn sda (line 2) ++ bitIn sda (line 3) ++
  bitIn sda (line 4) ++ bitIn sda (line 5) ++ bitIn sda (line 6) ++ bitIn sda (line 7) ++
  [Event.direction (Pin.sda sda) true, Event.write (Pin.sda sda) last,
   Event.write Pin.scl true, Event.wait, Event.write Pin.scl false,
   Event.write (Pin.sda sda) true]

/-- The byte whose bits 7, 6, ..., 0 are the levels `line 0, ..., line 7`. -/
def byteOfLevels (line : Nat → Bool) : Nat :=
  (line 0).toNat * 128 + (line 1).toNat * 64 + (line 2).toNat * 32 + (line 3).toNat * 16 +
  (line 4).toNat * 8 + (line 5).toNat * 4 + (line 6).toNat * 2 + (line 7).toNat

/-- The byte spelled by a list of levels, first level first (most significant). -/
def byteOfBits : List Bool → Nat
  | [] => 0
  | b :: bs => b.toNat * 2 ^ bs.length + byteOfBits bs

/-- The levels which pin `p` presents at the first eight events that drive the clock
high: the bits of the first byte clocked out on `p`. -/
def firstBits (p : Pin) (evs : List Event) (ps : Pin → PinState) : List Bool :=
  ((atRises p evs ps).take 8).map PinState.level

/-- The levels of pin `p` after each event of a trace, starting from the pins `ps`. -/
def levelsAfter (p : Pin) : List Event → (Pin → PinState) → List Bool
  | [], _ => []
  | e :: tr, ps => (e.apply ps p).level :: levelsAfter p tr (e.apply ps)

/-- The low halves of a trace, given the events `acc` seen since the last write of the
clock pin: for every event that drives the clock high, the events that precede it back
to the previous write of the clock pin (or to the start). -/
def lowHalvesFrom : List Event → List Event → List (List Event)
  | [], _ => []
  | e :: tr, acc =>
    if e = Event.write Pin.scl true then acc :: lowHalvesFrom tr []
    else if e = Event.write Pin.scl false then lowHalvesFrom tr []
    else lowHalvesFrom tr (acc ++ [e])

/-- The low halves of a trace. -/
def lowHalves (tr : List Event) : List (List Event) :=
  lowHalvesFrom tr []

/-- The pin writes, direction changes and delays of a trace, in order: the trace
without its samples. -/
def quiet (evs : List Event) : List Event :=
  evs.filter (fun e => !e.isSample)

/-- The event with the level of a sample forgotten. -/
def Event.blank : Event → Event
  | Event.sample p _ => Event.sample p false
  | e => e

/-- An operation is blind to the peer when it only appends events and the events it
appends are the same from any two buses up to the levels of the samples. -/
def Blind (f : Bus → Bus) : Prop :=
  ∀ s t : Bus, (f s).trace = s.trace ++ emitted s (f s) ∧
    (emitted s (f s)).map Event.blank = (emitted t (f t)).map Event.blank

end SoftPot

/-!
# Repetier-Firmware: software serial-clock bus (`SoftSPI.h`)

A shallow embedding of the bit-banged serial-clock engine of
`src/ArduinoAVR/Repetier/SoftSPI.h`, in the same style as the two-wire bus: every call
of the pin capability appends one event to a trace and `getValue` takes its level from
a stream supplied by the environment.  The template parameter `Mode` is a natural
number whose bits are the flags of `SoftSPIFlags`.
-/

namespace SoftSPI

/-! ## Pins, events and the bus state -/

/-- The three pins of the template: `SckPin`, `MisoPin` and `MosiPin`. -/
inductive Pin where
  | sck
  | miso
  | mosi
  deriving DecidableEq, Repr

/-- One call of the pin capability, as seen from outside. -/
inductive Event where
  /-- A call `DioPin<pin>::setValue(level)`. -/
  | write (p : Pin) (level : Bool)
  /-- A call `DioPin<pin>::setDirection(mode)`. -/
  | direction (p : Pin) (output : Bool)
  /-- A call `DioPin<pin>::getValue()`, together with the level that was read. -/
  | sample (p : Pin) (level : Bool)
  deriving DecidableEq, Repr

/-- The state threaded through every operation: the events performed so far (oldest
first) and the levels which the environment will present at the coming calls of
`getValue`. -/
structure Bus where
  trace : List Event
  line : Nat → Bool

/-- The flag `NONE = 0` of `enum SoftSPIFlags`. -/
def NONE : Nat := 0

/-- The flag `CPHA_MODE = 1` of `enum SoftSPIFlags`. -/
def CPHA_MODE : Nat := 1

/-- The flag `CPOL_MODE = 2` of `enum SoftSPIFlags`. -/
def CPOL_MODE : Nat := 2

/-- The flag `MISO_PULLUP = 4` of `enum SoftSPIFlags`. -/
def MISO_PULLUP : Nat := 4

/-- The private `fastPinMode<pin>(mode)`, that is `DioPin<pin>::setDirection(mode)`. -/
def fastPinMode (pin : Pin) (mode : Bool) (s : Bus) : Bus :=
  { s with trace := s.trace ++ [Event.direction pin mode] }

/-- The private `fastDigitalRead<pin>()`, that is `DioPin<pin>::getValue()`: returns
the next level of the line and consumes it. -/
def fastDigitalRead (pin : Pin) (s : Bus) : Bool × Bus :=
  (s.line 0,
   { trace := s.trace ++ [Event.sample pin (s.line 0)], line := fun n => s.line (n + 1) })

/-- The private `fastDigitalWrite<pin>(level)`, that is `DioPin<pin>::setValue(level)`. -/
def fastDigitalWrite (pin : Pin) (level : Bool) (s : Bus) : Bus :=
  { s with trace := s.trace ++ [Event.write pin level] }

/-- The private `fastPinConfig<pin>(mode, level)`. -/
def fastPinConfig (pin : Pin) (mode level : Bool) (s : Bus) : Bus :=
  let s := fastPinMode pin mode s
  fastDigitalWrite pin level s

/-- The private `MODE_CPOL()`: `(Mode & CPOL_MODE) != 0`. -/
def MODE_CPOL (Mode : Nat) : Bool :=
  decide (Mode &&& CPOL_MODE ≠ 0)

/-- The private `MODE_CPHA()`: `(Mode & CPHA_MODE) != 0`. -/
def MODE_CPHA (Mode : Nat) : Bool :=
  decide (Mode &&& CPHA_MODE ≠ 0)

/-! ## The members of `SoftSPI` -/

/-- Member `void begin()`; the `int` value `Mode & MISO_PULLUP` is converted to the
`bool` parameter `level`. -/
def begin (Mode : Nat) (s : Bus) : Bus :=
  let s := fastPinConfig Pin.miso false (decide (Mode &&& MISO_PULLUP ≠ 0)) s
  let s := fastPinConfig Pin.mosi true (!MODE_CPHA Mode) s
  fastPinConfig Pin.sck true (MODE_CPOL Mode) s

/-- The private `bool receiveBit()`. -/
def receiveBit (Mode : Nat) (s : Bus) : Bool × Bus :=
  let s := if MODE_CPHA Mode then fastDigitalWrite Pin.sck (!MODE_CPOL Mode) s else s
  let s := fastDigitalWrite Pin.sck
    (if MODE_CPHA Mode then MODE_CPOL Mode else !MODE_CPOL Mode) s
  let r := fastDigitalRead Pin.miso s
  let ret := r.1
  let s := r.2
  let s := if !MODE_CPHA Mode then fastDigitalWrite Pin.sck (MODE_CPOL Mode) s else s
  (ret, s)

/-- The private `void sendBit(bool bit)`. -/
def sendBit (Mode : Nat) (bit : Bool) (s : Bus) : Bus :=
  let s := if MODE_CPHA Mode then fastDigitalWrite Pin.sck (!MODE_CPOL Mode) s else s
  let s := fastDigitalWrite Pin.mosi bit s
  let s := fastDigitalWrite Pin.sck
    (if MODE_CPHA Mode then MODE_CPOL Mode else !MODE_CPOL Mode) s
  if !MODE_CPHA Mode then fastDigitalWrite Pin.sck (MODE_CPOL Mode) s else s

/-- The private `bool transferBit(bool bit)`. -/
def transferBit (Mode : Nat) (bit : Bool) (s : Bus) : Bool × Bus :=
  let s := if MODE_CPHA Mode then fastDigitalWrite Pin.sck (!MODE_CPOL Mode) s else s
  let s := fastDigitalWrite Pin.mosi bit s
  let s := fastDigitalWrite Pin.sck
    (if MODE_CPHA Mode then MODE_CPOL Mode else !MODE_CPOL Mode) s
  let r := fastDigitalRead Pin.miso s
  let ret := r.1
  let s := r.2
  let s := if !MODE_CPHA Mode then fastDigitalWrite Pin.sck (MODE_CPOL Mode) s else s
  (ret, s)

/-- The loop of `receive()`:
`for (uint8_t m = 0x80; m != 0; m >>= 1) { if (receiveBit()) data |= m; }`,
entered with the current mask `m` and accumulator `data`. -/
def receiveLoop (Mode : Nat) (m : Nat) (data : Nat) (s : Bus) : Nat × Bus :=
  if m = 0 then (data, s)
  else
    let r := receiveBit Mode s
    let data := if r.1 then data ||| m else data
    receiveLoop Mode (m >>> 1) data r.2
termination_by m
decreasing_by
  simp only [Nat.shiftRight_succ, Nat.shiftRight_zero]
  omega

/-- Member `uint8_t receive()`. -/
def receive (Mode : Nat) (s : Bus) : Nat × Bus :=
  receiveLoop Mode 0x80 0 s

/-- The loop of `send(uint8_t data)`:
`for (uint8_t m = 0x80; m != 0; m >>= 1) { sendBit((data & m) != 0); }`,
entered with the current mask `m`. -/
def sendLoop (Mode : Nat) (data : Nat) (m : Nat) (s : Bus) : Bus :=
  if m = 0 then s
  else
    let s := sendBit Mode (decide (data &&& m ≠ 0)) s
    sendLoop Mode data (m >>> 1) s
termination_by m
decreasing_by
  simp only [Nat.shiftRight_succ, Nat.shiftRight_zero]
  omega

/-- Member `void send(uint8_t data)`. -/
def send (Mode : Nat) (data : Nat) (s : Bus) : Bus :=
  sendLoop Mode data 0x80 s

/-- The loop of `transfer(uint8_t txData)`:
`for (uint8_t m = 0x80; m != 0; m >>= 1) { if (transferBit((txData & m) != 0)) rxData |= m; }`,
entered with the current mask `m` and accumulator `rxData`. -/
def transferLoop (Mode : Nat) (txData : Nat) (m : Nat) (rxData : Nat) (s : Bus) : Nat × Bus :=
  if m = 0 then (rxData, s)
  else
    let r := transferBit Mode (decide (txData &&& m ≠ 0)) s
    let rxData := if r.1 then rxData ||| m else rxData
    transferLoop Mode txData (m >>> 1) rxData r.2
termination_by m
decreasing_by
  simp only [Nat.shiftRight_succ, Nat.shiftRight_zero]
  omega

/-- Member `uint8_t transfer(uint8_t txData)`. -/
def transfer (Mode : Nat) (txData : Nat) (s : Bus) : Nat × Bus :=
  transferLoop Mode txData 0x80 0 s

/-! ## Observing a trace -/

/-- The events an operation appended when it took the bus from `before` to `after`. -/
def emitted (before after : Bus) : List Event :=
  after.trace.drop before.trace.length

/-- Whether the event is a call of `getValue`. -/
def Event.isSample : Event → Bool
  | Event.sample _ _ => true
  | _ => false

/-- Whether the event writes a level to the output pin. -/
def Event.isOutputWrite : Event → Bool
  | Event.write Pin.mosi _ => true
  | _ => false

/-- The levels written to the clock pin, in order. -/
def clockWrites : List Event → List Bool
  | [] => []
  | Event.write Pin.sck level :: tr => level :: clockWrites tr
  | _ :: tr => clockWrites tr

/-- The levels written to the output pin, in order. -/
def outputWrites : List Event → List Bool
  | [] => []
  | Event.write Pin.mosi level :: tr => level :: outputWrites tr
  | _ :: tr => outputWrites tr

/-- For every sample of a trace, the clock edge right before it: `some (from, to)` when
the event just before the sample writes the level `to` to the clock pin while the clock
was at level `from`, and `none` when another event (or none) comes just before the
sample.  The walk starts with the clock at level `clock` and `edge` as the edge made by
the event before the first one. -/
def edgesAtSamples : List Event → Bool → Option (Bool × Bool) → List (Option (Bool × Bool))
  | [], _, _ => []
  | Event.write Pin.sck level :: tr, clock, _ => edgesAtSamples tr level (some (clock, level))
  | Event.sample _ _ :: tr, clock, edge => edge :: edgesAtSamples tr clock none
  | _ :: tr, clock, _ => edgesAtSamples tr clock none

/-- Modelled from the spec: the effect of one event on the pins (the header
`fastio_template.h` is not part of the sources); `setDirection` and `setValue` change
the addressed pin only, `getValue` changes nothing. -/
def Event.apply (e : Event) (ps : Pin → SoftPot.PinState) : Pin → SoftPot.PinState :=
  match e with
  | Event.write p level => fun q => if q = p then { ps q with level := level } else ps q
  | Event.direction p output => fun q => if q = p then { ps q with output := output } else ps q
  | Event.sample _ _ => ps

/-- The pins after the events of a trace, starting from the pins `ps`. -/
def replay : List Event → (Pin → SoftPot.PinState) → Pin → SoftPot.PinState
  | [], ps => ps
  | e :: tr, ps => replay tr (e.apply ps)

/-- The pin writes and direction changes of a trace, in order: the trace without its
samples. -/
def quiet (evs : List Event) : List Event :=
  evs.filter (fun e => !e.isSample)

/-- The event with the level of a sample forgotten. -/
def Event.blank : Event → Event
  | Event.sample p _ => Event.sample p false
  | e => e

/-- The events of one `transferBit(bit)` when the level sampled is `level`. -/
def transferCell (Mode : Nat) (bit level : Bool) : List Event :=
  (if MODE_CPHA Mode then [Event.write Pin.sck (!MODE_CPOL Mode)] else []) ++
  [Event.write Pin.mosi bit,
   Event.write Pin.sck (if MODE_CPHA Mode then MODE_CPOL Mode else !MODE_CPOL Mode),
   Event.sample Pin.miso level] ++
  (if MODE_CPHA Mode then [] else [Event.write Pin.sck (MODE_CPOL Mode)])

/-- The events of one `sendBit(bit)`. -/
def sendCell (Mode : Nat) (bit : Bool) : List Event :=
  (if MODE_CPHA Mode then [Event.write Pin.sck (!MODE_CPOL Mode)] else []) ++
  [Event.write Pin.mosi bit,
   Event.write Pin.sck (if MODE_CPHA Mode then MODE_CPOL Mode else !MODE_CPOL Mode)] ++
  (if MODE_CPHA Mode then [] else [Event.write Pin.sck (MODE_CPOL Mode)])

/-- The events of one `receiveBit()` when the level sampled is `level`. -/
def receiveCell (Mode : Nat) (level : Bool) : List Event :=
  (if MODE_CPHA Mode then [Event.write Pin.sck (!MODE_CPOL Mode)] else []) ++
  [Event.write Pin.sck (if MODE_CPHA Mode then MODE_CPOL Mode else !MODE_CPOL Mode),
   Event.sample Pin.miso level] ++
  (if MODE_CPHA Mode then [] else [Event.write Pin.sck (MODE_CPOL Mode)])

/-- One call of a byte-level member. -/
inductive Call where
  | send (data : Nat)
  | receive
  | transfer (txData : Nat)
  deriving DecidableEq, Repr

/-- The bus after one call of a byte-level member (its result is dropped). -/
def Call.run (Mode : Nat) : Call → Bus → Bus
  | Call.send data, s => SoftSPI.send Mode data s
  | Call.receive, s => (SoftSPI.receive Mode s).2
  | Call.transfer txData, s => (SoftSPI.transfer Mode txData s).2

/-- The bus after a sequence of calls, first call first. -/
def runCalls (Mode : Nat) : List Call → Bus → Bus
  | [], s => s
  | c :: cs, s => runCalls Mode cs (c.run Mode s)

end SoftSPI

namespace SoftPot

/-! ## The byte primitives produce exactly these events -/

theorem mask_ne_zero (i v : Nat) : decide (2 ^ i &&& v ≠ 0) = v.testBit i := by
  rw [Nat.two_pow_and]
  cases h : v.testBit i <;> simp

theorem emitted_append (s : Bus) (evs : List Event) (ln : Nat → Bool) :
    emitted s ⟨s.trace ++ evs, ln⟩ = evs := by
  simp [emitted]

theorem writeSDA_eq (sda v : Nat) (s : Bus) :
    writeSDA sda v s
      = (!(s.line 0), ⟨s.trace ++ byteOut sda v (s.line 0), fun n => s.line (n + 1)⟩) := by
  have h7 := mask_ne_zero 7 v
  have h6 := mask_ne_zero 6 v
  have h5 := mask_ne_zero 5 v
  have h4 := mask_ne_zero 4 v
  have h3 := mask_ne_zero 3 v
  have h2 := mask_ne_zero 2 v
  have h1 := mask_ne_zero 1 v
  have h0 := mask_ne_zero 0 v
  norm_num at h7 h6 h5 h4 h3 h2 h1 h0
  simp [writeSDA, writeLoop, setValue, delay, setDirection, getValue, byteOut, bitOut,
    h7, h6, h5, h4, h3, h2, h1, h0]

theorem or_masks (b7 b6 b5 b4 b3 b2 b1 b0 : Bool) :
    ((((((((if b7 = true then 128 else 0) ||| if b6 = true then 64 else 0) |||
      if b5 = true then 32 else 0) ||| if b4 = true then 16 else 0) |||
      if b3 = true then 8 else 0) ||| if b2 = true then 4 else 0) |||
      if b1 = true then 2 else 0) ||| if b0 = true then 1 else 0) =
    b7.toNat * 128 + b6.toNat * 64 + b5.toNat * 32 + b4.toNat * 16 + b3.toNat * 8 +
      b2.toNat * 4 + b1.toNat * 2 + b0.toNat := by
  revert b7 b6 b5 b4 b3 b2 b1 b0
  decide

theorem readSDA_eq (sda : Nat) (last : Bool) (s : Bus) :
    readSDA sda last s
      = (byteOfLevels s.line, ⟨s.trace ++ byteIn sda last s.line, fun n => s.line (n + 8)⟩) := by
  simp [readSDA, readLoop, setValue, delay, setDirection, getValue, byteIn, bitIn,
    byteOfLevels, or_masks]

/-! ## Dispatch to the addressed channel -/

theorem write_at (chain : List Nat) (k v : Nat) (s : Bus) (h : k < chain.length) :
    write chain k v s = writeSDA chain[k] v s := by
  induction chain generalizing k with
  | nil => simp at h
  | cons d rest ih =>
    cases k with
    | zero => simp [write]
    | succ j =>
      simp only [List.length_cons, Nat.add_lt_add_iff_right] at h
      simp [write, ih j h]

theorem read_at (chain : List Nat) (k : Nat) (last : Bool) (s : Bus) (h : k < chain.length) :
    read chain k last s = readSDA chain[k] last s := by
  induction chain generalizing k with
  | nil => simp at h
  | cons d rest ih =>
    cases k with
    | zero => simp [read]
    | succ j =>
      simp only [List.length_cons, Nat.add_lt_add_iff_right] at h
      simp [read, ih j h]

theorem testBit_of_levels (b7 b6 b5 b4 b3 b2 b1 b0 : Bool) :
    [7, 6, 5, 4, 3, 2, 1, 0].map
      (b7.toNat * 128 + b6.toNat * 64 + b5.toNat * 32 + b4.toNat * 16 + b3.toNat * 8 +
        b2.toNat * 4 + b1.toNat * 2 + b0.toNat).testBit
      = [b7, b6, b5, b4, b3, b2, b1, b0] := by
  revert b7 b6 b5 b4 b3 b2 b1 b0
  decide

/-! ## The broadcast, start, stop and init -/

theorem setSDA_eq (chain : List Nat) (value : Bool) (s : Bus) :
    setSDA chain value s
      = ⟨s.trace ++ chain.map (fun d => Event.write (Pin.sda d) value), s.line⟩ := by
  induction chain generalizing s with
  | nil => simp [setSDA, Terminal.setSDA]
  | cons d rest ih => simp [setSDA, ih, setValue]

theorem start_inner (chain : List Nat) (k a : Nat) (s : Bus) (h : k < chain.length) :
    start chain k a false s = startSDA chain[k] a s := by
  induction chain generalizing k with
  | nil => simp at h
  | cons d rest ih =>
    cases k with
    | zero => simp [start]
    | succ j =>
      simp only [List.length_cons, Nat.add_lt_add_iff_right] at h
      simp [start, ih j h]

theorem start_outer (chain : List Nat) (k a : Nat) (s : Bus) (h : k < chain.length) :
    start chain k a true s = startSDA chain[k] a (setSDA chain false s) := by
  cases chain with
  | nil => simp at h
  | cons d rest =>
    cases k with
    | zero => simp [start]
    | succ j =>
      simp only [List.length_cons, Nat.add_lt_add_iff_right] at h
      simp [start, start_inner rest j a _ h]

theorem stop_inner (chain : List Nat) (k : Nat) (s : Bus) (h : k < chain.length) :
    stop chain k false s = stopSDA s := by
  induction chain generalizing k with
  | nil => simp at h
  | cons d rest ih =>
    cases k with
    | zero => simp [stop]
    | succ j =>
      simp only [List.length_cons, Nat.add_lt_add_iff_right] at h
      simp [stop, ih j h]

theorem stop_outer (chain : List Nat) (k : Nat) (s : Bus) (h : k < chain.length) :
    stop chain k true s = delay (setSDA chain true (stopSDA s)) := by
  cases chain with
  | nil => simp at h
  | cons d rest =>
    cases k with
    | zero => simp [stop]
    | succ j =>
      simp only [List.length_cons, Nat.add_lt_add_iff_right] at h
      simp [stop, stop_inner rest j _ h]

theorem restart_at (chain : List Nat) (k a : Nat) (s : Bus) (h : k < chain.length) :
    restart chain k a s = some (startSDA chain[k] a (setValue Pin.scl true s)) := by
  induction chain generalizing k with
  | nil => simp at h
  | cons d rest ih =>
    cases k with
    | zero => simp [restart]
    | succ j =>
      simp only [List.length_cons, Nat.add_lt_add_iff_right] at h
      simp [restart, ih j h]

theorem init_eq (chain : List Nat) (isFirst : Bool) (s : Bus) :
    init chain isFirst s
      = ⟨s.trace ++ (chain.reverse.flatMap
            (fun d => [Event.direction (Pin.sda d) true, Event.write (Pin.sda d) true]) ++
          if isFirst ∧ chain ≠ [] then
            [Event.direction Pin.scl true, Event.write Pin.scl true, Event.wait]
          else []), s.line⟩ := by
  induction chain generalizing s isFirst with
  | nil => simp [init, Terminal.init]
  | cons d rest ih =>
    cases isFirst <;> simp [init, ih, setValue, setDirection, delay]

theorem emitted_ext (s t : Bus) (evs : List Event) (h : t.trace = s.trace ++ evs) :
    emitted s t = evs := by
  simp [emitted, h]

theorem pulses_broadcast (chain : List Nat) (value : Bool) (evs : List Event) :
    pulses (chain.map (fun d => Event.write (Pin.sda d) value) ++ evs) = pulses evs := by
  induction chain with
  | nil => rfl
  | cons d rest ih => simp [pulses, ih]

theorem emitted_mk (t evs : List Event) (l l' : Nat → Bool) :
    emitted ⟨t, l⟩ ⟨t ++ evs, l'⟩ = evs := by
  simp [emitted]

/-! ## Replaying events on the pins -/

theorem replay_append (a b : List Event) (ps : Pin → PinState) :
    replay (a ++ b) ps = replay b (replay a ps) := by
  induction a generalizing ps with
  | nil => rfl
  | cons e a ih => simp [replay, ih]

theorem replay_init_events (chain : List Nat) (d : Nat) (hd : d ∈ chain)
    (ps : Pin → PinState) :
    replay (chain.reverse.flatMap
        (fun d => [Event.direction (Pin.sda d) true, Event.write (Pin.sda d) true])) ps
      (Pin.sda d) = ⟨true, true⟩ := by
  induction chain with
  | nil => simp at hd
  | cons d0 rest ih =>
    simp only [List.reverse_cons, List.flatMap_append, List.flatMap_cons, List.flatMap_nil,
      List.append_nil, replay_append, replay, Event.apply]
    by_cases hdd : d = d0
    · subst hdd
      simp
    · have hmem : d ∈ rest := by
        cases hd with
        | head => exact absurd rfl hdd
        | tail _ hm => exact hm
      simp [hdd, ih hmem]

theorem replay_init_events_scl (chain : List Nat) (ps : Pin → PinState) :
    replay (chain.reverse.flatMap
        (fun d => [Event.direction (Pin.sda d) true, Event.write (Pin.sda d) true])) ps
      Pin.scl = ps Pin.scl := by
  induction chain with
  | nil => rfl
  | cons d0 rest ih =>
    simp [List.reverse_cons, List.flatMap_append, replay_append, replay, Event.apply, ih]

theorem replay_broadcast_scl (chain : List Nat) (value : Bool) (ps : Pin → PinState) :
    replay (chain.map (fun d => Event.write (Pin.sda d) value)) ps Pin.scl = ps Pin.scl := by
  induction chain generalizing ps with
  | nil => rfl
  | cons d0 rest ih => simp [replay, ih, Event.apply]

theorem replay_broadcast_keeps (chain : List Nat) (value : Bool) (ps : Pin → PinState)
    (d : Nat) (hps : (ps (Pin.sda d)).level = value) :
    (replay (chain.map (fun d => Event.write (Pin.sda d) value)) ps (Pin.sda d)).level
      = value := by
  induction chain generalizing ps with
  | nil => simpa [replay] using hps
  | cons d0 rest ih =>
    simp only [List.map_cons, replay]
    apply ih
    by_cases hdd : d = d0 <;> simp [Event.apply, hdd, hps]

theorem replay_broadcast (chain : List Nat) (value : Bool) (ps : Pin → PinState)
    (d : Nat) (hd : d ∈ chain) :
    (replay (chain.map (fun d => Event.write (Pin.sda d) value)) ps (Pin.sda d)).level
      = value := by
  induction chain generalizing ps with
  | nil => simp at hd
  | cons d0 rest ih =>
    simp only [List.map_cons, replay]
    by_cases hdd : d = d0
    · apply replay_broadcast_keeps
      simp [Event.apply, hdd]
    · apply ih
      cases hd with
      | head => exact absurd rfl hdd
      | tail _ hm => exact hm

/-! ## The byte-write primitive -/

/-- C1: on a chain with `k < N`, `write(k, v)` only appends events; among them there is
exactly one sample, it is taken from channel `k`'s data pin, and it lies in the ninth of
the nine clock pulses, after the delay that follows the raising of the clock and before
the clock is lowered; the result is `true` exactly when the sampled level is low and
`false` exactly when it is high. -/
theorem write_ack_sample (chain : List Nat) (k v : Nat) (s : Bus) (h : k < chain.length) :
    (write chain k v s).2.trace = s.trace ++ emitted s (write chain k v s).2 ∧
    (emitted s (write chain k v s).2).filter Event.isSample
      = [Event.sample (Pin.sda chain[k]) (s.line 0)] ∧
    (pulses (emitted s (write chain k v s).2)).length = 9 ∧
    (pulses (emitted s (write chain k v s).2))[8]?
      = some [Event.wait, Event.sample (Pin.sda chain[k]) (s.line 0)] ∧
    ((write chain k v s).1 = true ↔ s.line 0 = false) ∧
    ((write chain k v s).1 = false ↔ s.line 0 = true) := by
  rw [write_at chain k v s h, writeSDA_eq]
  simp [emitted, byteOut, bitOut, pulses, Event.isSample]

theorem write_ack_sample_witness :
    (emitted ⟨[], fun _ => false⟩ (write [4, 7] 1 0xA5 ⟨[], fun _ => false⟩).2).filter
        Event.isSample = [Event.sample (Pin.sda 7) false] ∧
    (write [4, 7] 1 0xA5 ⟨[], fun _ => false⟩).1 = true := by
  have h := write_ack_sample [4, 7] 1 0xA5 ⟨[], fun _ => false⟩ (by decide)
  exact ⟨h.2.1, h.2.2.2.2.1.2 rfl⟩

/-- C2: on a chain with `k < N`, `write(k, v)` drives the clock high nine times; at the
first eight of these events the level of channel `k`'s data pin is bit 7, 6, ..., 0 of
`v` (its direction is the one it had on entry) and at the ninth the pin is a released
input; before every raising but the first the clock is low; and during each of the
first eight pulses nothing happens but one delay, so the bit level set before the
raising stays until the clock is low again. -/
theorem write_msb_first (chain : List Nat) (k v : Nat) (s : Bus) (ps : Pin → PinState)
    (h : k < chain.length) :
    (emitted s (write chain k v s).2).count (Event.write Pin.scl true) = 9 ∧
    atRises (Pin.sda chain[k]) (emitted s (write chain k v s).2) ps
      = [⟨(ps (Pin.sda chain[k])).output, v.testBit 7⟩,
         ⟨(ps (Pin.sda chain[k])).output, v.testBit 6⟩,
         ⟨(ps (Pin.sda chain[k])).output, v.testBit 5⟩,
         ⟨(ps (Pin.sda chain[k])).output, v.testBit 4⟩,
         ⟨(ps (Pin.sda chain[k])).output, v.testBit 3⟩,
         ⟨(ps (Pin.sda chain[k])).output, v.testBit 2⟩,
         ⟨(ps (Pin.sda chain[k])).output, v.testBit 1⟩,
         ⟨(ps (Pin.sda chain[k])).output, v.testBit 0⟩,
         ⟨false, true⟩] ∧
    (atRises Pin.scl (emitted s (write chain k v s).2) ps).map PinState.level
      = (ps Pin.scl).level :: List.replicate 8 false ∧
    (pulses (emitted s (write chain k v s).2)).take 8 = List.replicate 8 [Event.wait] := by
  rw [write_at chain k v s h, writeSDA_eq]
  simp [emitted, byteOut, bitOut, pulses, atRises, Event.apply, List.replicate]

theorem write_msb_first_witness :
    (atRises (Pin.sda 7) (emitted ⟨[], fun _ => false⟩
        (write [4, 7] 1 0xA5 ⟨[], fun _ => false⟩).2) (fun _ => ⟨true, true⟩)).map
      PinState.level = [true, false, true, false, false, true, false, true, true] := by
  have h := write_msb_first [4, 7] 1 0xA5 ⟨[], fun _ => false⟩ (fun _ => ⟨true, true⟩)
    (by decide)
  have h2 := congrArg (List.map PinState.level) h.2.1
  simpa [Nat.testBit] using h2

/-! ## The byte-read primitive -/

/-- C3: on a chain with `k < N`, `read(k, last)` takes exactly eight samples, all from
channel `k`'s data pin; with `s1 .. s8` the levels presented at them in order, the result
is `s1 * 128 + s2 * 64 + ... + s8`, that is the byte whose bits 7, 6, ..., 0 are
`s1, ..., s8`; and the `i`-th sample lies in the `i`-th clock pulse, after the delay that
follows the raising of the clock and before the clock is lowered. -/
theorem read_msb_first (chain : List Nat) (k : Nat) (last : Bool) (s : Bus)
    (h : k < chain.length) :
    (read chain k last s).2.trace = s.trace ++ emitted s (read chain k last s).2 ∧
    (emitted s (read chain k last s).2).filter Event.isSample
      = [Event.sample (Pin.sda chain[k]) (s.line 0), Event.sample (Pin.sda chain[k]) (s.line 1),
         Event.sample (Pin.sda chain[k]) (s.line 2), Event.sample (Pin.sda chain[k]) (s.line 3),
         Event.sample (Pin.sda chain[k]) (s.line 4), Event.sample (Pin.sda chain[k]) (s.line 5),
         Event.sample (Pin.sda chain[k]) (s.line 6), Event.sample (Pin.sda chain[k]) (s.line 7)] ∧
    (read chain k last s).1
      = (s.line 0).toNat * 128 + (s.line 1).toNat * 64 + (s.line 2).toNat * 32 +
        (s.line 3).toNat * 16 + (s.line 4).toNat * 8 + (s.line 5).toNat * 4 +
        (s.line 6).toNat * 2 + (s.line 7).toNat ∧
    [7, 6, 5, 4, 3, 2, 1, 0].map (read chain k last s).1.testBit
      = [s.line 0, s.line 1, s.line 2, s.line 3, s.line 4, s.line 5, s.line 6, s.line 7] ∧
    (pulses (emitted s (read chain k last s).2)).take 8
      = [[Event.wait, Event.sample (Pin.sda chain[k]) (s.line 0)],
         [Event.wait, Event.sample (Pin.sda chain[k]) (s.line 1)],
         [Event.wait, Event.sample (Pin.sda chain[k]) (s.line 2)],
         [Event.wait, Event.sample (Pin.sda chain[k]) (s.line 3)],
         [Event.wait, Event.sample (Pin.sda chain[k]) (s.line 4)],
         [Event.wait, Event.sample (Pin.sda chain[k]) (s.line 5)],
         [Event.wait, Event.sample (Pin.sda chain[k]) (s.line 6)],
         [Event.wait, Event.sample (Pin.sda chain[k]) (s.line 7)]] := by
  rw [read_at chain k last s h, readSDA_eq]
  refine ⟨?_, ?_, ?_, ?_, ?_⟩
  · simp [emitted]
  · simp [emitted, byteIn, bitIn, Event.isSample]
  · rfl
  · exact testBit_of_levels _ _ _ _ _ _ _ _
  · simp [emitted, byteIn, bitIn, pulses]

theorem read_msb_first_witness :
    (read [4, 7] 1 false
      ⟨[], fun n => [true, false, true, false, false, true, false, true].getD n true⟩).1
      = 0xA5 := by
  have h := read_msb_first [4, 7] 1 false
    ⟨[], fun n => [true, false, true, false, false, true, false, true].getD n true⟩ (by decide)
  rw [h.2.2.1]
  rfl

/-- C4: on a chain with `k < N`, `read(k, last)` has nine clock pulses; when the clock
is raised for the ninth time channel `k`'s data pin is an output whose level is `last`,
whatever the pins were on entry and whatever levels were sampled; the ninth pulse holds
nothing but one delay, so the pin is still an output at level `last` after the first 46
events, which end with that delay; and the remaining events are the lowering of the
clock and the return of the data pin to high (the last four events are the raising, the
delay, the lowering and that return). -/
theorem read_ack_level (chain : List Nat) (k : Nat) (last : Bool) (s : Bus)
    (ps : Pin → PinState) (h : k < chain.length) :
    (pulses (emitted s (read chain k last s).2)).length = 9 ∧
    (atRises (Pin.sda chain[k]) (emitted s (read chain k last s).2) ps)[8]?
      = some ⟨true, last⟩ ∧
    (pulses (emitted s (read chain k last s).2))[8]? = some [Event.wait] ∧
    replay ((emitted s (read chain k last s).2).take 46) ps (Pin.sda chain[k])
      = ⟨true, last⟩ ∧
    (emitted s (read chain k last s).2).drop 44
      = [Event.write Pin.scl true, Event.wait, Event.write Pin.scl false,
         Event.write (Pin.sda chain[k]) true] := by
  rw [read_at chain k last s h, readSDA_eq]
  simp [emitted, byteIn, bitIn, pulses, atRises, replay, Event.apply]

theorem read_ack_level_witness :
    (atRises (Pin.sda 7) (emitted ⟨[], fun _ => true⟩
        (read [4, 7] 1 false ⟨[], fun _ => true⟩).2) (fun _ => ⟨false, true⟩))[8]?
      = some ⟨true, false⟩ := by
  have h := read_ack_level [4, 7] 1 false ⟨[], fun _ => true⟩ (fun _ => ⟨false, true⟩)
    (by decide)
  simpa using h.2.1

/-! ## Which pins an operation touches -/

/-- C5: on a chain with `k < N`, every pin that `write(k, v)`, `read(k, last)`,
`restart(k, addressRW)` and the inner calls (`isFirst = false`) of `start` and `stop`
write, re-direct or sample is the clock pin or channel `k`'s data pin, while `init` and
the outermost `start` and `stop` touch the data pin of every channel. -/
theorem channel_independence (chain : List Nat) (k v addressRW : Nat) (last : Bool) (s : Bus)
    (h : k < chain.length) :
    touched (emitted s (write chain k v s).2) ⊆ [Pin.scl, Pin.sda chain[k]] ∧
    touched (emitted s (read chain k last s).2) ⊆ [Pin.scl, Pin.sda chain[k]] ∧
    (∃ r, restart chain k addressRW s = some r ∧
      touched (emitted s r.2) ⊆ [Pin.scl, Pin.sda chain[k]]) ∧
    touched (emitted s (start chain k addressRW false s).2) ⊆ [Pin.scl, Pin.sda chain[k]] ∧
    touched (emitted s (stop chain k false s)) ⊆ [Pin.scl, Pin.sda chain[k]] ∧
    chain.map Pin.sda ⊆ touched (emitted s (init chain true s)) ∧
    chain.map Pin.sda ⊆ touched (emitted s (start chain k addressRW true s).2) ∧
    chain.map Pin.sda ⊆ touched (emitted s (stop chain k true s)) := by
  refine ⟨?_, ?_, ?_, ?_, ?_, ?_, ?_, ?_⟩
  · rw [write_at chain k v s h, writeSDA_eq]
    simp [emitted, byteOut, bitOut, touched, Event.pin?]
  · rw [read_at chain k last s h, readSDA_eq]
    simp [emitted, byteIn, bitIn, touched, Event.pin?]
  · refine ⟨_, restart_at chain k addressRW s h, ?_⟩
    simp only [startSDA, writeSDA_eq]
    simp [emitted, setValue, byteOut, bitOut, touched, Event.pin?]
  · rw [start_inner chain k addressRW s h]
    simp only [startSDA, writeSDA_eq]
    simp [emitted, setValue, byteOut, bitOut, touched, Event.pin?]
  · rw [stop_inner chain k s h]
    simp [emitted, stopSDA, setValue, delay, touched, Event.pin?]
  · rw [init_eq]
    intro p hp
    simp only [List.mem_map] at hp
    obtain ⟨d, hd, rfl⟩ := hp
    simp only [emitted_append, touched, List.mem_filterMap]
    exact ⟨Event.write (Pin.sda d) true, by simp [hd], rfl⟩
  · rw [start_outer chain k addressRW s h]
    simp only [startSDA, writeSDA_eq, setSDA_eq, setValue]
    intro p hp
    simp only [List.mem_map] at hp
    obtain ⟨d, hd, rfl⟩ := hp
    simp only [List.append_assoc, emitted_append, touched, List.mem_filterMap]
    exact ⟨Event.write (Pin.sda d) false, by simp [hd], rfl⟩
  · rw [stop_outer chain k s h]
    simp only [stopSDA, setSDA_eq, setValue, delay]
    intro p hp
    simp only [List.mem_map] at hp
    obtain ⟨d, hd, rfl⟩ := hp
    simp only [List.append_assoc, emitted_append, touched, List.mem_filterMap]
    exact ⟨Event.write (Pin.sda d) true, by simp [hd], rfl⟩

theorem channel_independence_witness :
    touched (emitted ⟨[], fun _ => true⟩ (write [4, 7, 9] 1 0x3C ⟨[], fun _ => true⟩).2)
      ⊆ [Pin.scl, Pin.sda 7] ∧
    [Pin.sda 4, Pin.sda 7, Pin.sda 9]
      ⊆ touched (emitted ⟨[], fun _ => true⟩ (stop [4, 7, 9] 1 true ⟨[], fun _ => true⟩)) := by
  have h := channel_independence [4, 7, 9] 1 0x3C 0xA0 false ⟨[], fun _ => true⟩ (by decide)
  exact ⟨h.1, h.2.2.2.2.2.2.2⟩

/-! ## The chain without data pins -/

/-- C6: on the chain of length 0, `init`, `start`, `stop`, `write`, `read` and `setSDA`
leave the bus as it is for every argument, so they append no event at all (no pin event
and no delay); `start` and `write` return `false` and `read` returns 0.  This holds for
the members of the terminal class and for the recursion at its end. -/
theorem empty_chain_noop (channel addressRW v : Nat) (isFirst last value : Bool) (s : Bus) :
    Terminal.init isFirst s = s ∧
    Terminal.start channel addressRW isFirst s = (false, s) ∧
    Terminal.stop channel isFirst s = s ∧
    Terminal.write channel v s = (false, s) ∧
    Terminal.read channel last s = (0, s) ∧
    Terminal.setSDA value s = s ∧
    init [] isFirst s = s ∧
    start [] channel addressRW isFirst s = (false.toNat, s) ∧
    stop [] channel isFirst s = s ∧
    write [] channel v s = (false, s) ∧
    read [] channel last s = (0, s) ∧
    setSDA [] value s = s ∧
    emitted s s = [] := by
  simp [Terminal.init, Terminal.start, Terminal.stop, Terminal.write, Terminal.read,
    Terminal.setSDA, init, start, stop, write, read, setSDA, emitted]

/-! ## Start, stop and init -/

/-- C7: on a chain with `k < N`, the outermost `start(k, addressRW)` appends exactly:
one low level on every data pin, in chain order; then a low level on the clock pin; then
the events of the byte-write `write(k, addressRW)` run from there.  So the broadcast is
there once (the length is `N + 1 + 47`), the single sample is that of the ninth pulse of
the byte-write, and the result is the converted acknowledgment of that byte-write: 1
exactly when the sampled level is low, 0 exactly when it is high. -/
theorem start_outermost_sequence (chain : List Nat) (k addressRW : Nat) (s : Bus)
    (h : k < chain.length) :
    emitted s (start chain k addressRW true s).2
      = chain.map (fun d => Event.write (Pin.sda d) false) ++ [Event.write Pin.scl false] ++
        emitted
          (s.after (chain.map (fun d => Event.write (Pin.sda d) false) ++
            [Event.write Pin.scl false]))
          (write chain k addressRW
            (s.after (chain.map (fun d => Event.write (Pin.sda d) false) ++
              [Event.write Pin.scl false]))).2 ∧
    (start chain k addressRW true s).2
      = (write chain k addressRW
          (s.after (chain.map (fun d => Event.write (Pin.sda d) false) ++
            [Event.write Pin.scl false]))).2 ∧
    (start chain k addressRW true s).1
      = (write chain k addressRW
          (s.after (chain.map (fun d => Event.write (Pin.sda d) false) ++
            [Event.write Pin.scl false]))).1.toNat ∧
    (start chain k addressRW true s).2.trace
      = s.trace ++ emitted s (start chain k addressRW true s).2 ∧
    (emitted s (start chain k addressRW true s).2).length = chain.length + 1 + 47 ∧
    (emitted s (start chain k addressRW true s).2).filter Event.isSample
      = [Event.sample (Pin.sda chain[k]) (s.line 0)] ∧
    (pulses (emitted s (start chain k addressRW true s).2))[8]?
      = some [Event.wait, Event.sample (Pin.sda chain[k]) (s.line 0)] ∧
    ((start chain k addressRW true s).1 = 1 ↔ s.line 0 = false) ∧
    ((start chain k addressRW true s).1 = 0 ↔ s.line 0 = true) := by
  rw [start_outer chain k addressRW s h, write_at chain k addressRW _ h]
  simp only [startSDA, writeSDA_eq, setSDA_eq, setValue, Bus.after]
  have e2 : ∀ (w : List Event) (l : Nat → Bool),
      emitted s ⟨s.trace ++ chain.map (fun d => Event.write (Pin.sda d) false) ++
          [Event.write Pin.scl false] ++ w, l⟩
        = chain.map (fun d => Event.write (Pin.sda d) false) ++
          [Event.write Pin.scl false] ++ w :=
    fun w l => emitted_ext _ _ _ (by simp)
  simp only [e2, emitted_mk]
  refine ⟨?_, ?_, ?_, ?_, ?_, ?_, ?_, ?_, ?_⟩
  · simp
  · simp
  · simp
  · simp
  · simp [byteOut, bitOut]
  · simp [byteOut, bitOut, Event.isSample, List.filter_map]
  · simp only [List.append_assoc, pulses_broadcast]
    simp [byteOut, bitOut, pulses]
  · cases s.line 0 <;> simp
  · cases s.line 0 <;> simp

theorem start_outermost_sequence_witness :
    emitted ⟨[], fun _ => false⟩ (start [4, 7] 1 0xA0 true ⟨[], fun _ => false⟩).2
      = [Event.write (Pin.sda 4) false, Event.write (Pin.sda 7) false,
         Event.write Pin.scl false] ++
        emitted
          ⟨[Event.write (Pin.sda 4) false, Event.write (Pin.sda 7) false,
            Event.write Pin.scl false], fun _ => false⟩
          (write [4, 7] 1 0xA0
            ⟨[Event.write (Pin.sda 4) false, Event.write (Pin.sda 7) false,
              Event.write Pin.scl false], fun _ => false⟩).2 ∧
    (start [4, 7] 1 0xA0 true ⟨[], fun _ => false⟩).1 = 1 := by
  have h := start_outermost_sequence [4, 7] 1 0xA0 ⟨[], fun _ => false⟩ (by decide)
  exact ⟨h.1, h.2.2.2.2.2.2.2.1.2 rfl⟩

/-- C8: on a chain with at least one data pin, and whatever the pins were before:
after the events of `init(true)` every data pin and the clock pin are outputs at high
level, and these events are the set-up of the data pins, the set-up of the clock pin and
one final delay; `init(false)` touches no clock pin; after the events of the outermost
`stop(k)`, `k < N`, the clock pin and every data pin are at high level, and these events
are a delay, the raising of the clock, a delay, one high level on every data pin and one
final delay. -/
theorem bus_free_after_init_and_stop (chain : List Nat) (k j : Nat) (s : Bus)
    (ps : Pin → PinState) (hk : k < chain.length) (hj : j < chain.length) :
    replay (emitted s (init chain true s)) ps (Pin.sda chain[j]) = ⟨true, true⟩ ∧
    replay (emitted s (init chain true s)) ps Pin.scl = ⟨true, true⟩ ∧
    emitted s (init chain true s)
      = chain.reverse.flatMap
          (fun d => [Event.direction (Pin.sda d) true, Event.write (Pin.sda d) true]) ++
        [Event.direction Pin.scl true, Event.write Pin.scl true, Event.wait] ∧
    Pin.scl ∉ touched (emitted s (init chain false s)) ∧
    (replay (emitted s (stop chain k true s)) ps Pin.scl).level = true ∧
    (replay (emitted s (stop chain k true s)) ps (Pin.sda chain[j])).level = true ∧
    emitted s (stop chain k true s)
      = [Event.wait, Event.write Pin.scl true, Event.wait] ++
        chain.map (fun d => Event.write (Pin.sda d) true) ++ [Event.wait] := by
  have hne : chain ≠ [] := by
    intro h0
    simp [h0] at hk
  have hmem : chain[j] ∈ chain := List.getElem_mem hj
  have hstop : emitted s (stop chain k true s)
      = [Event.wait, Event.write Pin.scl true, Event.wait] ++
        chain.map (fun d => Event.write (Pin.sda d) true) ++ [Event.wait] := by
    rw [stop_outer chain k s hk]
    apply emitted_ext
    simp [stopSDA, setSDA_eq, setValue, delay]
  rw [hstop, init_eq, init_eq, emitted_append, emitted_append]
  refine ⟨?_, ?_, ?_, ?_, ?_, ?_, rfl⟩
  · simp [hne, replay_append, replay, Event.apply, replay_init_events chain _ hmem]
  · simp [hne, replay_append, replay, Event.apply]
  · simp [hne]
  · simp only [Bool.false_eq_true, false_and, if_false, List.append_nil, touched,
      List.mem_filterMap, List.mem_flatMap, not_exists, not_and]
    rintro e ⟨d, -, hd⟩
    simp only [List.mem_cons, List.mem_singleton, List.not_mem_nil, or_false] at hd
    rcases hd with rfl | rfl <;> simp [Event.pin?]
  · simp [replay_append, replay, Event.apply, replay_broadcast_scl]
  · rw [List.append_assoc, replay_append, replay_append]
    exact replay_broadcast chain true _ _ hmem

theorem bus_free_after_init_and_stop_witness :
    replay (emitted ⟨[], fun _ => true⟩ (init [4, 7] true ⟨[], fun _ => true⟩))
      (fun _ => ⟨false, false⟩) (Pin.sda 4) = ⟨true, true⟩ ∧
    emitted ⟨[], fun _ => true⟩ (stop [4, 7] 1 true ⟨[], fun _ => true⟩)
      = [Event.wait, Event.write Pin.scl true, Event.wait, Event.write (Pin.sda 4) true,
         Event.write (Pin.sda 7) true, Event.wait] := by
  have h := bus_free_after_init_and_stop [4, 7] 1 0 ⟨[], fun _ => true⟩
    (fun _ => ⟨false, false⟩) (by decide) (by decide)
  exact ⟨h.1, h.2.2.2.2.2.2⟩

theorem emitted_trans (s t u : Bus) (e1 e2 : List Event)
    (h1 : t.trace = s.trace ++ e1) (h2 : u.trace = t.trace ++ e2) :
    emitted s u = emitted s t ++ emitted t u := by
  rw [emitted_ext s t e1 h1, emitted_ext t u e2 h2]
  exact emitted_ext s u _ (by rw [h2, h1, List.append_assoc])

theorem start_extends (chain : List Nat) (k a : Nat) (s : Bus) (h : k < chain.length) :
    (start chain k a true s).2.trace
      = s.trace ++ (chain.map (fun d => Event.write (Pin.sda d) false) ++
          [Event.write Pin.scl false] ++ byteOut chain[k] a (s.line 0)) := by
  rw [start_outer chain k a s h]
  simp [startSDA, writeSDA_eq, setSDA_eq, setValue]

theorem stop_extends (chain : List Nat) (k : Nat) (s : Bus) (h : k < chain.length) :
    (stop chain k true s).trace
      = s.trace ++ ([Event.wait, Event.write Pin.scl true, Event.wait] ++
          chain.map (fun d => Event.write (Pin.sda d) true) ++ [Event.wait]) := by
  rw [stop_outer chain k s h]
  simp [stopSDA, setSDA_eq, setValue, delay]

theorem byte_or_flag (a flag : Nat) (ha : a < 256) (hf : flag < 256) :
    (a ||| flag) % 256 = a ||| flag :=
  Nat.mod_eq_of_lt (Nat.or_lt_two_pow (n := 8) ha hf)

/-- C9: on a chain with `k < N` and for a byte `a`: if the outermost
`start(k, a | I2C_WRITE)` takes the bus from `s` to `s1`, `write(k, v)` then takes it to
`s2` and returns `ret`, and the outermost `stop(k)` then takes it to `s3`, then
`writeByte(k, a, v)` run from `s` returns `ret` (whatever `start` returned) and ends in
`s3`, whose trace is that of `s` followed by the events of the three steps in this
order; likewise `readByte(k, a)` is `start(k, a | I2C_READ)`, `read(k, true)` and
`stop(k)`, and returns the byte of that `read`. -/
theorem writeByte_readByte_compose (chain : List Nat) (k a v : Nat) (s s1 s2 s3 t1 t2 t3 : Bus)
    (ack1 rack : Nat) (ret : Bool) (b : Nat)
    (h : k < chain.length) (ha : a < 256)
    (h1 : start chain k (a ||| I2C_WRITE) true s = (ack1, s1))
    (h2 : write chain k v s1 = (ret, s2))
    (h3 : stop chain k true s2 = s3)
    (g1 : start chain k (a ||| I2C_READ) true s = (rack, t1))
    (g2 : read chain k true t1 = (b, t2))
    (g3 : stop chain k true t2 = t3) :
    writeByte chain k a v s = (ret, s3) ∧
    s3.trace = s.trace ++ (emitted s s1 ++ emitted s1 s2 ++ emitted s2 s3) ∧
    readByte chain k a s = (b, t3) ∧
    t3.trace = s.trace ++ (emitted s t1 ++ emitted t1 t2 ++ emitted t2 t3) := by
  obtain ⟨e1, he1⟩ : ∃ e, s1.trace = s.trace ++ e :=
    ⟨_, by rw [← show (start chain k (a ||| I2C_WRITE) true s).2 = s1 from by rw [h1]]
           exact start_extends chain k _ s h⟩
  obtain ⟨e2, he2⟩ : ∃ e, s2.trace = s1.trace ++ e :=
    ⟨_, by rw [← show (write chain k v s1).2 = s2 from by rw [h2], write_at chain k v s1 h,
             writeSDA_eq]⟩
  obtain ⟨e3, he3⟩ : ∃ e, s3.trace = s2.trace ++ e :=
    ⟨_, by rw [← h3]
           exact stop_extends chain k s2 h⟩
  obtain ⟨f1, hf1⟩ : ∃ e, t1.trace = s.trace ++ e :=
    ⟨_, by rw [← show (start chain k (a ||| I2C_READ) true s).2 = t1 from by rw [g1]]
           exact start_extends chain k _ s h⟩
  obtain ⟨f2, hf2⟩ : ∃ e, t2.trace = t1.trace ++ e :=
    ⟨_, by rw [← show (read chain k true t1).2 = t2 from by rw [g2], read_at chain k true t1 h,
             readSDA_eq]⟩
  obtain ⟨f3, hf3⟩ : ∃ e, t3.trace = t2.trace ++ e :=
    ⟨_, by rw [← g3]
           exact stop_extends chain k t2 h⟩
  refine ⟨?_, ?_, ?_, ?_⟩
  · simp [writeByte, byte_or_flag a I2C_WRITE ha (by decide), h1, h2, h3]
  · rw [emitted_ext _ _ _ he1, emitted_ext _ _ _ he2, emitted_ext _ _ _ he3, he3, he2, he1]
    simp
  · simp [readByte, byte_or_flag a I2C_READ ha (by decide), g1, g2, g3]
  · rw [emitted_ext _ _ _ hf1, emitted_ext _ _ _ hf2, emitted_ext _ _ _ hf3, hf3, hf2, hf1]
    simp

theorem writeByte_readByte_compose_witness :
    writeByte [4, 7] 1 0x50 0xA5 ⟨[], fun _ => false⟩
      = ((write [4, 7] 1 0xA5
            (start [4, 7] 1 (0x50 ||| I2C_WRITE) true ⟨[], fun _ => false⟩).2).1,
         stop [4, 7] 1 true
           (write [4, 7] 1 0xA5
             (start [4, 7] 1 (0x50 ||| I2C_WRITE) true ⟨[], fun _ => false⟩).2).2) ∧
    readByte [4, 7] 1 0x50 ⟨[], fun _ => false⟩
      = ((read [4, 7] 1 true
            (start [4, 7] 1 (0x50 ||| I2C_READ) true ⟨[], fun _ => false⟩).2).1,
         stop [4, 7] 1 true
           (read [4, 7] 1 true
             (start [4, 7] 1 (0x50 ||| I2C_READ) true ⟨[], fun _ => false⟩).2).2) := by
  have h := writeByte_readByte_compose [4, 7] 1 0x50 0xA5 ⟨[], fun _ => false⟩
    _ _ _ _ _ _ _ _ _ _ (by decide) (by decide)
    Prod.mk.eta.symm Prod.mk.eta.symm rfl Prod.mk.eta.symm Prod.mk.eta.symm rfl
  exact ⟨h.1, h.2.2.1⟩

/-! ## The write transaction on the literal input -/

theorem filter_isSample_broadcast (chain : List Nat) (value : Bool) :
    (chain.map (fun d => Event.write (Pin.sda d) value)).filter Event.isSample = [] := by
  induction chain with
  | nil => rfl
  | cons d rest ih => simp [Event.isSample]

theorem writeByte_eq (chain : List Nat) (k a v : Nat) (s : Bus) (h : k < chain.length) :
    writeByte chain k a v s
      = (!(s.line 1),
         ⟨s.trace ++ (chain.map (fun d => Event.write (Pin.sda d) false) ++
            [Event.write Pin.scl false] ++
            byteOut chain[k] ((a ||| I2C_WRITE) % 256) (s.line 0) ++
            byteOut chain[k] v (s.line 1) ++
            [Event.wait, Event.write Pin.scl true, Event.wait] ++
            chain.map (fun d => Event.write (Pin.sda d) true) ++ [Event.wait]),
          fun n => s.line (n + 2)⟩) := by
  simp [writeByte, start_outer chain k _ s h, write_at chain k v _ h, stop_outer chain k _ h,
    startSDA, writeSDA_eq, setSDA_eq, stopSDA, setValue, delay]

/-- C10 as stated fails: on the chain with the single data pin 0, with a peer that
holds the line low at the first sample and high at the second, the level sampled in the
ninth clock pulse of `writeByte(0, 0x50, 0xA5)` is low, but the result is `false`; so
the result is not `true` exactly when the ninth pulse samples a low level. -/
theorem writeByte_ninth_pulse_not_decisive :
    (pulses (emitted ⟨[], fun n => decide (n = 1)⟩
        (writeByte [0] 0 0x50 0xA5 ⟨[], fun n => decide (n = 1)⟩).2))[8]?
      = some [Event.wait, Event.sample (Pin.sda 0) false] ∧
    (writeByte [0] 0 0x50 0xA5 ⟨[], fun n => decide (n = 1)⟩).1 = false ∧
    ¬ ((writeByte [0] 0 0x50 0xA5 ⟨[], fun n => decide (n = 1)⟩).1 = true ↔
        (pulses (emitted ⟨[], fun n => decide (n = 1)⟩
            (writeByte [0] 0 0x50 0xA5 ⟨[], fun n => decide (n = 1)⟩).2))[8]?
          = some [Event.wait, Event.sample (Pin.sda 0) false]) := by
  rw [writeByte_eq [0] 0 0x50 0xA5 _ (by decide)]
  simp [emitted, byteOut, bitOut, pulses]

/-- C10, amended: on a chain with at least one data pin, `writeByte(0, 0x50, 0xA5)`
has nineteen clock pulses and takes two samples of channel 0's data pin, the first in
the ninth pulse (acknowledgment of the address byte) and the second in the eighteenth
(acknowledgment of the data byte); it returns `true` exactly when the second sampled
level is low, whatever the first is. -/
theorem writeByte_literal_ack (chain : List Nat) (s : Bus) (h : 0 < chain.length) :
    ((writeByte chain 0 0x50 0xA5 s).1 = true ↔ s.line 1 = false) ∧
    (emitted s (writeByte chain 0 0x50 0xA5 s).2).filter Event.isSample
      = [Event.sample (Pin.sda chain[0]) (s.line 0),
         Event.sample (Pin.sda chain[0]) (s.line 1)] ∧
    (pulses (emitted s (writeByte chain 0 0x50 0xA5 s).2)).length = 19 ∧
    (pulses (emitted s (writeByte chain 0 0x50 0xA5 s).2))[8]?
      = some [Event.wait, Event.sample (Pin.sda chain[0]) (s.line 0)] ∧
    (pulses (emitted s (writeByte chain 0 0x50 0xA5 s).2))[17]?
      = some [Event.wait, Event.sample (Pin.sda chain[0]) (s.line 1)] := by
  rw [writeByte_eq chain 0 0x50 0xA5 s h]
  simp only [emitted_append, List.append_assoc, pulses_broadcast]
  refine ⟨?_, ?_, ?_, ?_, ?_⟩
  · simp
  · simp [byteOut, bitOut, Event.isSample, filter_isSample_broadcast]
  · simp [byteOut, bitOut, pulses, pulses_broadcast]
  · simp [byteOut, bitOut, pulses]
  · simp [byteOut, bitOut, pulses]

theorem writeByte_literal_ack_witness :
    ((writeByte [0] 0 0x50 0xA5 ⟨[], fun n => decide (n = 0)⟩).1 = true ↔
      decide (1 = 0) = false) ∧
    (writeByte [0] 0 0x50 0xA5 ⟨[], fun n => decide (n = 0)⟩).1 = true := by
  have h := writeByte_literal_ack [0] ⟨[], fun n => decide (n = 0)⟩ (by decide)
  exact ⟨h.1, h.1.2 rfl⟩

/-! ## The address byte and the loopback of the byte primitives -/

set_option maxRecDepth 100000 in
theorem byteOfBits_testBit (x : Nat) (h : x < 256) :
    byteOfBits [x.testBit 7, x.testBit 6, x.testBit 5, x.testBit 4, x.testBit 3,
      x.testBit 2, x.testBit 1, x.testBit 0] = x := by
  revert x
  decide

set_option maxRecDepth 100000 in
theorem levels_testBit (x : Nat) (h : x < 256) :
    (x.testBit 7).toNat * 128 + (x.testBit 6).toNat * 64 + (x.testBit 5).toNat * 32 +
      (x.testBit 4).toNat * 16 + (x.testBit 3).toNat * 8 + (x.testBit 2).toNat * 4 +
      (x.testBit 1).toNat * 2 + (x.testBit 0).toNat = x := by
  revert x
  decide

theorem firstBits_byteOut (sda x : Nat) (ack : Bool) (rest : List Event)
    (ps : Pin → PinState) :
    firstBits (Pin.sda sda) (byteOut sda x ack ++ rest) ps
      = [x.testBit 7, x.testBit 6, x.testBit 5, x.testBit 4, x.testBit 3, x.testBit 2,
         x.testBit 1, x.testBit 0] := by
  simp [firstBits, byteOut, bitOut, atRises, Event.apply]

theorem atRises_broadcast (p : Pin) (chain : List Nat) (value : Bool) (evs : List Event)
    (ps : Pin → PinState) :
    atRises p (chain.map (fun d => Event.write (Pin.sda d) value) ++ evs) ps
      = atRises p evs (replay (chain.map (fun d => Event.write (Pin.sda d) value)) ps) := by
  induction chain generalizing ps with
  | nil => rfl
  | cons d rest ih => simp [atRises, replay, ih]

theorem firstBits_transaction (chain : List Nat) (sda x : Nat) (ack : Bool)
    (rest : List Event) (ps : Pin → PinState) :
    firstBits (Pin.sda sda) (chain.map (fun d => Event.write (Pin.sda d) false) ++
        ([Event.write Pin.scl false] ++ (byteOut sda x ack ++ rest))) ps
      = [x.testBit 7, x.testBit 6, x.testBit 5, x.testBit 4, x.testBit 3, x.testBit 2,
         x.testBit 1, x.testBit 0] := by
  have h := firstBits_byteOut sda x ack rest
    ((Event.write Pin.scl false).apply
      (replay (chain.map (fun d => Event.write (Pin.sda d) false)) ps))
  simpa [firstBits, atRises_broadcast, atRises] using h

theorem readByte_eq (chain : List Nat) (k a : Nat) (s : Bus) (h : k < chain.length) :
    readByte chain k a s
      = (byteOfLevels (fun n => s.line (n + 1)),
         ⟨s.trace ++ (chain.map (fun d => Event.write (Pin.sda d) false) ++
            [Event.write Pin.scl false] ++
            byteOut chain[k] ((a ||| I2C_READ) % 256) (s.line 0) ++
            byteIn chain[k] true (fun n => s.line (n + 1)) ++
            [Event.wait, Event.write Pin.scl true, Event.wait] ++
            chain.map (fun d => Event.write (Pin.sda d) true) ++ [Event.wait]),
          fun n => s.line (n + 9)⟩) := by
  simp [readByte, start_outer chain k _ s h, read_at chain k true _ h, stop_outer chain k _ h,
    startSDA, writeSDA_eq, readSDA_eq, setSDA_eq, stopSDA, setValue, delay, Nat.add_assoc]

/-- C11 as stated fails: on the chain with the single data pin 0 and for the 7-bit
address 1, the first byte which `writeByte(0, 1, 0)` clocks out on channel 0 is 1, the
address itself, while `(1 << 1) | 0` is 2; and the first byte of `readByte(0, 2)` is 3,
while `(2 << 1) | 1` is 5. -/
theorem address_byte_not_shifted :
    byteOfBits (firstBits (Pin.sda 0)
        (emitted ⟨[], fun _ => false⟩ (writeByte [0] 0 1 0 ⟨[], fun _ => false⟩).2)
        (fun _ => ⟨true, true⟩)) = 1 ∧
    (1 <<< 1) ||| 0 = 2 ∧
    byteOfBits (firstBits (Pin.sda 0)
        (emitted ⟨[], fun _ => false⟩ (readByte [0] 0 2 ⟨[], fun _ => false⟩).2)
        (fun _ => ⟨true, true⟩)) = 3 ∧
    (2 <<< 1) ||| 1 = 5 := by
  refine ⟨?_, by decide, ?_, by decide⟩
  · rw [writeByte_eq [0] 0 1 0 _ (by decide), emitted_mk]
    simp only [List.append_assoc, List.getElem_cons_zero]
    rw [firstBits_transaction]
    decide
  · rw [readByte_eq [0] 0 2 _ (by decide), emitted_mk]
    simp only [List.append_assoc, List.getElem_cons_zero]
    rw [firstBits_transaction]
    decide

/-- C11, amended: on a chain with `k < N` and for every 7-bit address `a`, the first
byte clocked out on channel `k` by `writeByte(k, a, v)` is `a | I2C_WRITE`, which is `a`
itself, and the first byte clocked out by `readByte(k, a)` is `a | I2C_READ`, which is
`a | 1`: the address is not shifted, the read/write bit is or-ed into its bit 0. -/
theorem address_byte_format (chain : List Nat) (k a v : Nat) (s : Bus)
    (ps : Pin → PinState) (h : k < chain.length) (ha : a < 128) :
    byteOfBits (firstBits (Pin.sda chain[k])
        (emitted s (writeByte chain k a v s).2) ps) = a ||| I2C_WRITE ∧
    a ||| I2C_WRITE = a ∧
    byteOfBits (firstBits (Pin.sda chain[k])
        (emitted s (readByte chain k a s).2) ps) = a ||| I2C_READ ∧
    a ||| I2C_READ = a ||| 1 := by
  have ha' : a < 256 := by omega
  have hw : (a ||| I2C_WRITE) % 256 = a ||| I2C_WRITE := byte_or_flag a _ ha' (by decide)
  have hr : (a ||| I2C_READ) % 256 = a ||| I2C_READ := byte_or_flag a _ ha' (by decide)
  refine ⟨?_, by simp [I2C_WRITE], ?_, rfl⟩
  · rw [writeByte_eq chain k a v s h, emitted_append]
    simp only [List.append_assoc]
    rw [firstBits_transaction, hw]
    exact byteOfBits_testBit _ (by rw [← hw]; exact Nat.mod_lt _ (by decide))
  · rw [readByte_eq chain k a s h, emitted_append]
    simp only [List.append_assoc]
    rw [firstBits_transaction, hr]
    exact byteOfBits_testBit _ (by rw [← hr]; exact Nat.mod_lt _ (by decide))

theorem address_byte_format_witness :
    byteOfBits (firstBits (Pin.sda 7)
        (emitted ⟨[], fun _ => false⟩ (writeByte [4, 7] 1 0x50 0xA5 ⟨[], fun _ => false⟩).2)
        (fun _ => ⟨true, true⟩)) = 0x50 ||| I2C_WRITE ∧
    byteOfBits (firstBits (Pin.sda 7)
        (emitted ⟨[], fun _ => false⟩ (readByte [4, 7] 1 0x50 ⟨[], fun _ => false⟩).2)
        (fun _ => ⟨true, true⟩)) = 0x50 ||| I2C_READ := by
  have h := address_byte_format [4, 7] 1 0x50 0xA5 ⟨[], fun _ => false⟩
    (fun _ => ⟨true, true⟩) (by decide) (by decide)
  exact ⟨h.1, h.2.2.1⟩

/-- C12: on a chain with `k < N` and for every byte `v`: if the eight levels which
`read(k, last)` samples are, in order, the levels which channel `k`'s data pin has at
the first eight raisings of the clock in `write(k, v)` (a peer echoing the received
bits), then `read(k, last)` returns `v`. -/
theorem loopback_round_trip (chain : List Nat) (k v : Nat) (last : Bool) (s t : Bus)
    (ps : Pin → PinState) (h : k < chain.length) (hv : v < 256)
    (hecho : [t.line 0, t.line 1, t.line 2, t.line 3, t.line 4, t.line 5, t.line 6, t.line 7]
      = firstBits (Pin.sda chain[k]) (emitted s (write chain k v s).2) ps) :
    (read chain k last t).1 = v := by
  rw [write_at chain k v s h, writeSDA_eq, emitted_append] at hecho
  have hb := firstBits_byteOut chain[k] v (s.line 0) [] ps
  rw [List.append_nil] at hb
  rw [hb] at hecho
  simp only [List.cons.injEq, and_true] at hecho
  obtain ⟨h0, h1, h2, h3, h4, h5, h6, h7⟩ := hecho
  rw [read_at chain k last t h, readSDA_eq]
  simp only [byteOfLevels, h0, h1, h2, h3, h4, h5, h6, h7]
  exact levels_testBit v hv

theorem loopback_round_trip_witness :
    (read [4, 7] 1 false
      ⟨[], fun n => [true, false, true, false, false, true, false, true].getD n true⟩).1
      = 0xA5 :=
  loopback_round_trip [4, 7] 1 0xA5 false ⟨[], fun _ => true⟩
    ⟨[], fun n => [true, false, true, false, false, true, false, true].getD n true⟩
    (fun _ => ⟨true, true⟩) (by decide) (by decide)
    (by
      rw [write_at [4, 7] 1 0xA5 _ (by decide), writeSDA_eq, emitted_append]
      have hb := firstBits_byteOut 7 0xA5 true [] (fun _ => ⟨true, true⟩)
      rw [List.append_nil] at hb
      simp only [List.getElem_cons_succ, List.getElem_cons_zero]
      rw [hb]
      decide)

end SoftPot

namespace SoftSPI

/-! ## The exact events of the serial-clock engine -/

theorem spi_emitted_append (s : Bus) (evs : List Event) (ln : Nat → Bool) :
    emitted s ⟨s.trace ++ evs, ln⟩ = evs := by
  simp [emitted]

theorem spi_emitted_ext (s t : Bus) (evs : List Event) (h : t.trace = s.trace ++ evs) :
    emitted s t = evs := by
  simp [emitted, h]

theorem spi_replay_append (a b : List Event) (ps : Pin → SoftPot.PinState) :
    replay (a ++ b) ps = replay b (replay a ps) := by
  induction a generalizing ps with
  | nil => rfl
  | cons e a ih => simp [replay, ih]

theorem and_mask_ne_zero (i v : Nat) : decide (v &&& 2 ^ i ≠ 0) = v.testBit i := by
  rw [Nat.and_two_pow]
  cases h : v.testBit i <;> simp

theorem or_mask_step (b : Bool) (data m : Nat) :
    (if b = true then data ||| m else data) = data ||| (if b = true then m else 0) := by
  cases b <;> simp

theorem transferBit_eq (Mode : Nat) (bit : Bool) (s : Bus) :
    transferBit Mode bit s
      = (s.line 0, ⟨s.trace ++ transferCell Mode bit (s.line 0), fun n => s.line (n + 1)⟩) := by
  cases hA : MODE_CPHA Mode <;>
    simp [transferBit, transferCell, fastDigitalWrite, fastDigitalRead, hA]

theorem sendBit_eq (Mode : Nat) (bit : Bool) (s : Bus) :
    sendBit Mode bit s = ⟨s.trace ++ sendCell Mode bit, s.line⟩ := by
  cases hA : MODE_CPHA Mode <;>
    simp [sendBit, sendCell, fastDigitalWrite, hA]

theorem receiveBit_eq (Mode : Nat) (s : Bus) :
    receiveBit Mode s
      = (s.line 0, ⟨s.trace ++ receiveCell Mode (s.line 0), fun n => s.line (n + 1)⟩) := by
  cases hA : MODE_CPHA Mode <;>
    simp [receiveBit, receiveCell, fastDigitalWrite, fastDigitalRead, hA]

theorem transfer_eq (Mode txData : Nat) (s : Bus) :
    transfer Mode txData s
      = (SoftPot.byteOfLevels s.line,
         ⟨s.trace ++
            (transferCell Mode (txData.testBit 7) (s.line 0) ++
             transferCell Mode (txData.testBit 6) (s.line 1) ++
             transferCell Mode (txData.testBit 5) (s.line 2) ++
             transferCell Mode (txData.testBit 4) (s.line 3) ++
             transferCell Mode (txData.testBit 3) (s.line 4) ++
             transferCell Mode (txData.testBit 2) (s.line 5) ++
             transferCell Mode (txData.testBit 1) (s.line 6) ++
             transferCell Mode (txData.testBit 0) (s.line 7)),
          fun n => s.line (n + 8)⟩) := by
  have h7 := and_mask_ne_zero 7 txData
  have h6 := and_mask_ne_zero 6 txData
  have h5 := and_mask_ne_zero 5 txData
  have h4 := and_mask_ne_zero 4 txData
  have h3 := and_mask_ne_zero 3 txData
  have h2 := and_mask_ne_zero 2 txData
  have h1 := and_mask_ne_zero 1 txData
  have h0 := and_mask_ne_zero 0 txData
  norm_num at h7 h6 h5 h4 h3 h2 h1 h0
  simp [transfer, transferLoop, transferBit_eq, or_mask_step, SoftPot.or_masks,
    SoftPot.byteOfLevels, h7, h6, h5, h4, h3, h2, h1, h0]

theorem send_eq (Mode data : Nat) (s : Bus) :
    send Mode data s
      = ⟨s.trace ++
            (sendCell Mode (data.testBit 7) ++ sendCell Mode (data.testBit 6) ++
             sendCell Mode (data.testBit 5) ++ sendCell Mode (data.testBit 4) ++
             sendCell Mode (data.testBit 3) ++ sendCell Mode (data.testBit 2) ++
             sendCell Mode (data.testBit 1) ++ sendCell Mode (data.testBit 0)),
          s.line⟩ := by
  have h7 := and_mask_ne_zero 7 data
  have h6 := and_mask_ne_zero 6 data
  have h5 := and_mask_ne_zero 5 data
  have h4 := and_mask_ne_zero 4 data
  have h3 := and_mask_ne_zero 3 data
  have h2 := and_mask_ne_zero 2 data
  have h1 := and_mask_ne_zero 1 data
  have h0 := and_mask_ne_zero 0 data
  norm_num at h7 h6 h5 h4 h3 h2 h1 h0
  simp [send, sendLoop, sendBit_eq, h7, h6, h5, h4, h3, h2, h1, h0]

theorem receive_eq (Mode : Nat) (s : Bus) :
    receive Mode s
      = (SoftPot.byteOfLevels s.line,
         ⟨s.trace ++
            (receiveCell Mode (s.line 0) ++ receiveCell Mode (s.line 1) ++
             receiveCell Mode (s.line 2) ++ receiveCell Mode (s.line 3) ++
             receiveCell Mode (s.line 4) ++ receiveCell Mode (s.line 5) ++
             receiveCell Mode (s.line 6) ++ receiveCell Mode (s.line 7)),
          fun n => s.line (n + 8)⟩) := by
  simp [receive, receiveLoop, receiveBit_eq, or_mask_step, SoftPot.or_masks,
    SoftPot.byteOfLevels]

/-! ## The mode table and the byte transfer -/

/-- C13: in every mode and for every byte `tx`, `transfer(tx)` writes the clock pin
exactly 16 times, with the levels NOT CPOL, CPOL, NOT CPOL, CPOL, ...; started with the
clock at its idle level CPOL, each of its 8 samples comes right after a write of the
clock pin that changes the clock to the level `CPOL == CPHA`, so after a rising edge
when CPOL = CPHA and after a falling edge otherwise.  For the four modes: 0 samples
after rising edges from idle low, 1 after falling edges from idle low, 2 after falling
edges from idle high, 3 after rising edges from idle high. -/
theorem transfer_mode_table (Mode tx : Nat) (s : Bus) :
    clockWrites (emitted s (transfer Mode tx s).2)
      = [!MODE_CPOL Mode, MODE_CPOL Mode, !MODE_CPOL Mode, MODE_CPOL Mode,
         !MODE_CPOL Mode, MODE_CPOL Mode, !MODE_CPOL Mode, MODE_CPOL Mode,
         !MODE_CPOL Mode, MODE_CPOL Mode, !MODE_CPOL Mode, MODE_CPOL Mode,
         !MODE_CPOL Mode, MODE_CPOL Mode, !MODE_CPOL Mode, MODE_CPOL Mode] ∧
    edgesAtSamples (emitted s (transfer Mode tx s).2) (MODE_CPOL Mode) none
      = List.replicate 8
          (some (!(MODE_CPOL Mode == MODE_CPHA Mode), MODE_CPOL Mode == MODE_CPHA Mode)) ∧
    (MODE_CPOL 0 = false ∧ MODE_CPHA 0 = false ∧
      edgesAtSamples (emitted s (transfer 0 tx s).2) false none
        = List.replicate 8 (some (false, true))) ∧
    (MODE_CPOL 1 = false ∧ MODE_CPHA 1 = true ∧
      edgesAtSamples (emitted s (transfer 1 tx s).2) false none
        = List.replicate 8 (some (true, false))) ∧
    (MODE_CPOL 2 = true ∧ MODE_CPHA 2 = false ∧
      edgesAtSamples (emitted s (transfer 2 tx s).2) true none
        = List.replicate 8 (some (true, false))) ∧
    (MODE_CPOL 3 = true ∧ MODE_CPHA 3 = true ∧
      edgesAtSamples (emitted s (transfer 3 tx s).2) true none
        = List.replicate 8 (some (false, true))) := by
  have hgen : ∀ M : Nat,
      edgesAtSamples (emitted s (transfer M tx s).2) (MODE_CPOL M) none
        = List.replicate 8
            (some (!(MODE_CPOL M == MODE_CPHA M), MODE_CPOL M == MODE_CPHA M)) := by
    intro M
    rw [transfer_eq, spi_emitted_append]
    cases hA : MODE_CPHA M <;> cases hO : MODE_CPOL M <;>
      simp [transferCell, hA, hO, edgesAtSamples, List.replicate]
  refine ⟨?_, hgen Mode, ?_, ?_, ?_, ?_⟩
  · rw [transfer_eq, spi_emitted_append]
    cases hA : MODE_CPHA Mode <;> simp [transferCell, hA, clockWrites]
  · exact ⟨by decide, by decide, hgen 0⟩
  · exact ⟨by decide, by decide, hgen 1⟩
  · exact ⟨by decide, by decide, hgen 2⟩
  · exact ⟨by decide, by decide, hgen 3⟩

/-- C14: in every mode, for every byte `tx` and whatever levels are sampled,
`transfer(tx)` appends, for the bits 7, 6, ..., 0 of `tx` in this order: when CPHA is
set a write that takes the clock off its idle level; the write of the bit to the output
pin; the write of the clock that makes the sampling edge; the sample; and when CPHA is
clear the write that returns the clock to idle.  So the output pin is written exactly 8
times, with bit 7, ..., bit 0 of `tx`, each time before the sampling edge of that bit,
and the result is `r1 * 128 + ... + r8`, the byte whose bits 7, ..., 0 are the sampled
levels in order. -/
theorem transfer_msb_first (Mode tx : Nat) (s : Bus) :
    emitted s (transfer Mode tx s).2
      = [0, 1, 2, 3, 4, 5, 6, 7].flatMap (fun i =>
          (if MODE_CPHA Mode then [Event.write Pin.sck (!MODE_CPOL Mode)] else []) ++
          [Event.write Pin.mosi (tx.testBit (7 - i)),
           Event.write Pin.sck (if MODE_CPHA Mode then MODE_CPOL Mode else !MODE_CPOL Mode),
           Event.sample Pin.miso (s.line i)] ++
          (if MODE_CPHA Mode then [] else [Event.write Pin.sck (MODE_CPOL Mode)])) ∧
    (transfer Mode tx s).2.trace = s.trace ++ emitted s (transfer Mode tx s).2 ∧
    outputWrites (emitted s (transfer Mode tx s).2)
      = [tx.testBit 7, tx.testBit 6, tx.testBit 5, tx.testBit 4, tx.testBit 3,
         tx.testBit 2, tx.testBit 1, tx.testBit 0] ∧
    (transfer Mode tx s).1
      = (s.line 0).toNat * 128 + (s.line 1).toNat * 64 + (s.line 2).toNat * 32 +
        (s.line 3).toNat * 16 + (s.line 4).toNat * 8 + (s.line 5).toNat * 4 +
        (s.line 6).toNat * 2 + (s.line 7).toNat ∧
    [7, 6, 5, 4, 3, 2, 1, 0].map (transfer Mode tx s).1.testBit
      = [s.line 0, s.line 1, s.line 2, s.line 3, s.line 4, s.line 5, s.line 6, s.line 7] := by
  rw [transfer_eq, spi_emitted_append]
  refine ⟨?_, rfl, ?_, rfl, SoftPot.testBit_of_levels _ _ _ _ _ _ _ _⟩
  · simp [transferCell, List.flatMap_cons]
  · cases hA : MODE_CPHA Mode <;> simp [transferCell, hA, outputWrites]

/-! ## The idle level of the clock -/

theorem replay_transfer_sck (Mode tx : Nat) (s : Bus) (ps : Pin → SoftPot.PinState) :
    replay (emitted s (transfer Mode tx s).2) ps Pin.sck
      = ⟨(ps Pin.sck).output, MODE_CPOL Mode⟩ := by
  rw [transfer_eq, spi_emitted_append]
  cases hA : MODE_CPHA Mode <;> simp [transferCell, hA, replay, Event.apply]

theorem replay_send_sck (Mode data : Nat) (s : Bus) (ps : Pin → SoftPot.PinState) :
    replay (emitted s (send Mode data s)) ps Pin.sck
      = ⟨(ps Pin.sck).output, MODE_CPOL Mode⟩ := by
  rw [send_eq, spi_emitted_append]
  cases hA : MODE_CPHA Mode <;> simp [sendCell, hA, replay, Event.apply]

theorem replay_receive_sck (Mode : Nat) (s : Bus) (ps : Pin → SoftPot.PinState) :
    replay (emitted s (receive Mode s).2) ps Pin.sck
      = ⟨(ps Pin.sck).output, MODE_CPOL Mode⟩ := by
  rw [receive_eq, spi_emitted_append]
  cases hA : MODE_CPHA Mode <;> simp [receiveCell, hA, replay, Event.apply]

theorem call_extends (Mode : Nat) (c : Call) (s : Bus) :
    (c.run Mode s).trace = s.trace ++ emitted s (c.run Mode s) := by
  cases c with
  | send data => simp [Call.run, send_eq, emitted]
  | receive => simp [Call.run, receive_eq, emitted]
  | transfer txData => simp [Call.run, transfer_eq, emitted]

theorem replay_call_sck (Mode : Nat) (c : Call) (s : Bus) (ps : Pin → SoftPot.PinState) :
    replay (emitted s (c.run Mode s)) ps Pin.sck = ⟨(ps Pin.sck).output, MODE_CPOL Mode⟩ := by
  cases c with
  | send data => exact replay_send_sck Mode data s ps
  | receive => exact replay_receive_sck Mode s ps
  | transfer txData => exact replay_transfer_sck Mode txData s ps

theorem runCalls_idle (Mode : Nat) (calls : List Call) (s : Bus) :
    ∃ evs, (runCalls Mode calls s).trace = s.trace ++ evs ∧
      ∀ ps : Pin → SoftPot.PinState, (ps Pin.sck).level = MODE_CPOL Mode →
        replay evs ps Pin.sck = ⟨(ps Pin.sck).output, MODE_CPOL Mode⟩ := by
  induction calls generalizing s with
  | nil =>
    refine ⟨[], by simp [runCalls], ?_⟩
    intro ps h
    rw [← h]
    rfl
  | cons c cs ih =>
    obtain ⟨evs, htr, hinv⟩ := ih (c.run Mode s)
    refine ⟨emitted s (c.run Mode s) ++ evs, ?_, ?_⟩
    · rw [runCalls, htr, call_extends Mode c s, List.append_assoc]
    · intro ps _
      rw [spi_replay_append, hinv _ (by rw [replay_call_sck]), replay_call_sck]

theorem begin_eq (Mode : Nat) (s : Bus) :
    begin Mode s
      = ⟨s.trace ++
          [Event.direction Pin.miso false,
           Event.write Pin.miso (decide (Mode &&& MISO_PULLUP ≠ 0)),
           Event.direction Pin.mosi true, Event.write Pin.mosi (!MODE_CPHA Mode),
           Event.direction Pin.sck true, Event.write Pin.sck (MODE_CPOL Mode)], s.line⟩ := by
  simp [begin, fastPinConfig, fastPinMode, fastDigitalWrite]

/-- C15: in every mode and from any pin state, `begin()` leaves the clock pin an output
at level CPOL, the output pin an output at level NOT CPHA and the input pin an input
whose level (the pull-up) is the flag `MISO_PULLUP` of the mode; and after `begin()`
followed by any finite sequence of `send`, `receive` and `transfer` calls, with any
arguments and any sampled levels, the clock pin is again an output at level CPOL. -/
theorem clock_idle_invariant (Mode : Nat) (calls : List Call) (s : Bus)
    (ps : Pin → SoftPot.PinState) :
    replay (emitted s (begin Mode s)) ps Pin.sck = ⟨true, MODE_CPOL Mode⟩ ∧
    replay (emitted s (begin Mode s)) ps Pin.mosi = ⟨true, !MODE_CPHA Mode⟩ ∧
    replay (emitted s (begin Mode s)) ps Pin.miso
      = ⟨false, decide (Mode &&& MISO_PULLUP ≠ 0)⟩ ∧
    (runCalls Mode calls (begin Mode s)).trace
      = s.trace ++ emitted s (runCalls Mode calls (begin Mode s)) ∧
    replay (emitted s (runCalls Mode calls (begin Mode s))) ps Pin.sck
      = ⟨true, MODE_CPOL Mode⟩ := by
  obtain ⟨evs, htr, hinv⟩ := runCalls_idle Mode calls (begin Mode s)
  have hb : (begin Mode s).trace = s.trace ++ emitted s (begin Mode s) := by
    rw [begin_eq, spi_emitted_append]
  have hsck : replay (emitted s (begin Mode s)) ps Pin.sck = ⟨true, MODE_CPOL Mode⟩ := by
    rw [begin_eq, spi_emitted_append]
    simp [replay, Event.apply]
  have hall : (runCalls Mode calls (begin Mode s)).trace
      = s.trace ++ (emitted s (begin Mode s) ++ evs) := by
    rw [htr, hb, List.append_assoc]
  refine ⟨hsck, ?_, ?_, ?_, ?_⟩
  · rw [begin_eq, spi_emitted_append]
    simp [replay, Event.apply]
  · rw [begin_eq, spi_emitted_append]
    simp [replay, Event.apply]
  · rw [spi_emitted_ext _ _ _ hall, hall]
  · rw [spi_emitted_ext _ _ _ hall, spi_replay_append, hinv _ (by rw [hsck]), hsck]

/-! ## Send and receive against transfer -/

/-- C17: in every mode, for every byte `d` and whatever levels are sampled: `send(d)`
appends exactly the events of `transfer(d)` without its samples, that is the same
writes of the clock pin and of the output pin in the same order; `receive()` appends
exactly the events of `transfer(d)` without its writes of the output pin, that is the
same writes of the clock pin and the same samples in the same order; and `receive()`
returns the byte which `transfer(d)` returns. -/
theorem send_receive_specialize (Mode d : Nat) (s : Bus) :
    emitted s (send Mode d s)
      = (emitted s (transfer Mode d s).2).filter (fun e => !e.isSample) ∧
    emitted s (receive Mode s).2
      = (emitted s (transfer Mode d s).2).filter (fun e => !e.isOutputWrite) ∧
    (receive Mode s).1 = (transfer Mode d s).1 ∧
    (receive Mode s).2.line = (transfer Mode d s).2.line := by
  rw [send_eq, receive_eq, transfer_eq, spi_emitted_append, spi_emitted_append, spi_emitted_append]
  refine ⟨?_, ?_, rfl, rfl⟩
  · cases hA : MODE_CPHA Mode <;>
      simp [sendCell, transferCell, hA, Event.isSample]
  · cases hA : MODE_CPHA Mode <;>
      simp [receiveCell, transferCell, hA, Event.isOutputWrite]

end SoftSPI

namespace SoftPot

/-! ## A channel index beyond the chain -/

theorem write_beyond (chain : List Nat) (c v : Nat) (s : Bus) (h : chain.length ≤ c) :
    write chain c v s = (false, s) := by
  induction chain generalizing c with
  | nil => rfl
  | cons d rest ih =>
    cases c with
    | zero => simp at h
    | succ j =>
      simp only [List.length_cons, Nat.add_le_add_iff_right] at h
      simp [write, ih j h]

theorem read_beyond (chain : List Nat) (c : Nat) (last : Bool) (s : Bus)
    (h : chain.length ≤ c) : read chain c last s = (0, s) := by
  induction chain generalizing c with
  | nil => rfl
  | cons d rest ih =>
    cases c with
    | zero => simp at h
    | succ j =>
      simp only [List.length_cons, Nat.add_le_add_iff_right] at h
      simp [read, ih j h]

theorem start_inner_beyond (chain : List Nat) (c a : Nat) (s : Bus) (h : chain.length ≤ c) :
    start chain c a false s = (0, s) := by
  induction chain generalizing c with
  | nil => rfl
  | cons d rest ih =>
    cases c with
    | zero => simp at h
    | succ j =>
      simp only [List.length_cons, Nat.add_le_add_iff_right] at h
      simp [start, ih j h]

theorem start_outer_beyond (chain : List Nat) (c a : Nat) (s : Bus) (h : chain.length ≤ c) :
    start chain c a true s = (0, setSDA chain false s) := by
  cases chain with
  | nil => rfl
  | cons d rest =>
    cases c with
    | zero => simp at h
    | succ j =>
      simp only [List.length_cons, Nat.add_le_add_iff_right] at h
      simp [start, start_inner_beyond rest j a _ h]

theorem stop_inner_beyond (chain : List Nat) (c : Nat) (s : Bus) (h : chain.length ≤ c) :
    stop chain c false s = s := by
  induction chain generalizing c with
  | nil => rfl
  | cons d rest ih =>
    cases c with
    | zero => simp at h
    | succ j =>
      simp only [List.length_cons, Nat.add_le_add_iff_right] at h
      simp [stop, ih j h]

theorem stop_outer_beyond (chain : List Nat) (c : Nat) (s : Bus) (h : chain.length ≤ c)
    (hne : 0 < chain.length) :
    stop chain c true s = delay (setSDA chain true s) := by
  cases chain with
  | nil => simp at hne
  | cons d rest =>
    cases c with
    | zero => simp at h
    | succ j =>
      simp only [List.length_cons, Nat.add_le_add_iff_right] at h
      simp [stop, stop_inner_beyond rest j _ h]

theorem restart_beyond (chain : List Nat) (c a : Nat) (s : Bus) (h : chain.length ≤ c) :
    restart chain c a s = none := by
  induction chain generalizing c with
  | nil => rfl
  | cons d rest ih =>
    cases c with
    | zero => simp at h
    | succ j =>
      simp only [List.length_cons, Nat.add_le_add_iff_right] at h
      simp [restart, ih j h]

theorem touched_broadcast (chain : List Nat) (value : Bool) :
    touched (chain.map (fun d => Event.write (Pin.sda d) value)) = chain.map Pin.sda := by
  induction chain with
  | nil => rfl
  | cons d rest ih =>
    simp only [touched] at ih
    simp [touched, Event.pin?, ih]

/-- C19: on a chain with at least one data pin and for an index `c` with
`N <= c <= 255`: `write(c, v)` returns `false` and `read(c, last)` returns 0, both
leaving the bus as it is (no pin event, no delay); the outermost `start(c, addressRW)`
returns 0, that is `false`, and appends only one low level on every data pin (no clock
event, no byte); the outermost `stop(c)` appends only one high level on every data pin
and then one delay (no clock event). -/
theorem channel_out_of_range (chain : List Nat) (c v addressRW : Nat) (last : Bool) (s : Bus)
    (hN : 0 < chain.length) (hc : chain.length ≤ c) (_hbyte : c ≤ 255) :
    write chain c v s = (false, s) ∧
    read chain c last s = (0, s) ∧
    emitted s (write chain c v s).2 = [] ∧
    emitted s (read chain c last s).2 = [] ∧
    (start chain c addressRW true s).1 = false.toNat ∧
    emitted s (start chain c addressRW true s).2
      = chain.map (fun d => Event.write (Pin.sda d) false) ∧
    (start chain c addressRW true s).2.trace
      = s.trace ++ chain.map (fun d => Event.write (Pin.sda d) false) ∧
    emitted s (stop chain c true s)
      = chain.map (fun d => Event.write (Pin.sda d) true) ++ [Event.wait] ∧
    (stop chain c true s).trace
      = s.trace ++ (chain.map (fun d => Event.write (Pin.sda d) true) ++ [Event.wait]) ∧
    Pin.scl ∉ touched (emitted s (start chain c addressRW true s).2) ∧
    Pin.scl ∉ touched (emitted s (stop chain c true s)) := by
  rw [write_beyond chain c v s hc, read_beyond chain c last s hc,
    start_outer_beyond chain c addressRW s hc, stop_outer_beyond chain c s hc hN]
  have hstop : emitted s (delay (setSDA chain true s))
      = chain.map (fun d => Event.write (Pin.sda d) true) ++ [Event.wait] :=
    emitted_ext _ _ _ (by simp [setSDA_eq, delay])
  refine ⟨rfl, rfl, by simp [emitted], by simp [emitted], rfl, ?_, ?_, hstop, ?_, ?_, ?_⟩
  · rw [setSDA_eq, emitted_append]
  · rw [setSDA_eq]
  · simp [setSDA_eq, delay]
  · rw [setSDA_eq, emitted_append, touched_broadcast]
    simp
  · rw [hstop]
    have hb := touched_broadcast chain true
    simp only [touched] at hb
    simp only [touched, List.filterMap_append, hb]
    simp [Event.pin?]

theorem channel_out_of_range_witness :
    write [4, 7] 2 0xA5 ⟨[], fun _ => false⟩ = (false, ⟨[], fun _ => false⟩) ∧
    emitted ⟨[], fun _ => false⟩ (start [4, 7] 200 0xA0 true ⟨[], fun _ => false⟩).2
      = [Event.write (Pin.sda 4) false, Event.write (Pin.sda 7) false] ∧
    emitted ⟨[], fun _ => false⟩ (stop [4, 7] 200 true ⟨[], fun _ => false⟩)
      = [Event.write (Pin.sda 4) true, Event.write (Pin.sda 7) true, Event.wait] := by
  have h := channel_out_of_range [4, 7] 2 0xA5 0xA0 false ⟨[], fun _ => false⟩
    (by decide) (by decide) (by decide)
  have g := channel_out_of_range [4, 7] 200 0xA5 0xA0 false ⟨[], fun _ => false⟩
    (by decide) (by decide) (by decide)
  exact ⟨h.1, g.2.2.2.2.2.1, g.2.2.2.2.2.2.2.1⟩

/-! ## The pins after a byte primitive and during stop -/

theorem levelsAfter_broadcast_high (chain : List Nat) (p : Pin) (rest : List Event)
    (ps : Pin → PinState) (h : (ps p).level = true) :
    ∃ qs : Pin → PinState, (qs p).level = true ∧
      levelsAfter p (chain.map (fun d => Event.write (Pin.sda d) true) ++ rest) ps
        = List.replicate chain.length true ++ levelsAfter p rest qs := by
  induction chain generalizing ps with
  | nil => exact ⟨ps, h, rfl⟩
  | cons d ds ih =>
    have h1 : ((Event.write (Pin.sda d) true).apply ps p).level = true := by
      by_cases hp : p = Pin.sda d <;> simp [Event.apply, hp, h]
    obtain ⟨qs, hq, hl⟩ := ih _ h1
    refine ⟨qs, hq, ?_⟩
    have e : levelsAfter p ((d :: ds).map (fun d => Event.write (Pin.sda d) true) ++ rest) ps
        = ((Event.write (Pin.sda d) true).apply ps p).level ::
          levelsAfter p (ds.map (fun d => Event.write (Pin.sda d) true) ++ rest)
            ((Event.write (Pin.sda d) true).apply ps) := rfl
    rw [e, h1, hl]
    rfl

theorem levelsAfter_stop (chain : List Nat) (p : Pin) (ps : Pin → PinState)
    (hp : p ≠ Pin.scl) (h : (ps p).level = true) :
    levelsAfter p ([Event.wait, Event.write Pin.scl true, Event.wait] ++
        chain.map (fun d => Event.write (Pin.sda d) true) ++ [Event.wait]) ps
      = List.replicate (chain.length + 4) true := by
  have h1 : ((Event.write Pin.scl true).apply ((Event.wait).apply ps) p).level = true := by
    simp [Event.apply, hp, h]
  obtain ⟨qs, hq, hl⟩ := levelsAfter_broadcast_high chain p [Event.wait]
    ((Event.wait).apply ((Event.write Pin.scl true).apply ((Event.wait).apply ps))) h1
  have h3 : levelsAfter p [Event.wait] qs = [true] := by
    simp [levelsAfter, Event.apply, hq]
  have e : levelsAfter p ([Event.wait, Event.write Pin.scl true, Event.wait] ++
        chain.map (fun d => Event.write (Pin.sda d) true) ++ [Event.wait]) ps
      = (ps p).level :: ((Event.write Pin.scl true).apply ((Event.wait).apply ps) p).level ::
        ((Event.write Pin.scl true).apply ((Event.wait).apply ps) p).level ::
        levelsAfter p (chain.map (fun d => Event.write (Pin.sda d) true) ++ [Event.wait])
          ((Event.wait).apply ((Event.write Pin.scl true).apply ((Event.wait).apply ps))) :=
    rfl
  rw [e, h, h1, hl, h3, ← List.replicate_succ', ← List.replicate_succ,
    ← List.replicate_succ, ← List.replicate_succ]

/-- C20: on a chain with `k < N`, from any pin state and whatever levels are sampled:
after the events of `write(k, v)`, and likewise after those of `read(k, last)`, the
clock pin is at low level and channel `k`'s data pin is an output at high level; and
when the outermost `stop(k)` follows either of them, the data pin of channel `k` is at
high level after every one of the `N + 4` events of `stop`, as it was before the first.
A `writeByte` or `readByte` transaction is `start`, then that `write` or `read`, then
that `stop`. -/
theorem byte_primitive_post_state (chain : List Nat) (k a v : Nat) (last : Bool) (s : Bus)
    (ps : Pin → PinState) (h : k < chain.length) :
    (replay (emitted s (write chain k v s).2) ps Pin.scl).level = false ∧
    replay (emitted s (write chain k v s).2) ps (Pin.sda chain[k]) = ⟨true, true⟩ ∧
    (replay (emitted s (read chain k last s).2) ps Pin.scl).level = false ∧
    replay (emitted s (read chain k last s).2) ps (Pin.sda chain[k]) = ⟨true, true⟩ ∧
    levelsAfter (Pin.sda chain[k])
        (emitted (write chain k v s).2 (stop chain k true (write chain k v s).2))
        (replay (emitted s (write chain k v s).2) ps)
      = List.replicate (chain.length + 4) true ∧
    levelsAfter (Pin.sda chain[k])
        (emitted (read chain k last s).2 (stop chain k true (read chain k last s).2))
        (replay (emitted s (read chain k last s).2) ps)
      = List.replicate (chain.length + 4) true ∧
    (writeByte chain k a v s).2
      = stop chain k true
          (write chain k v (start chain k ((a ||| I2C_WRITE) % 256) true s).2).2 ∧
    (readByte chain k a s).2
      = stop chain k true
          (read chain k true (start chain k ((a ||| I2C_READ) % 256) true s).2).2 := by
  have hw : replay (emitted s (write chain k v s).2) ps (Pin.sda chain[k]) = ⟨true, true⟩ := by
    rw [write_at chain k v s h, writeSDA_eq, emitted_append]
    simp [byteOut, bitOut, replay, Event.apply]
  have hr : replay (emitted s (read chain k last s).2) ps (Pin.sda chain[k])
      = ⟨true, true⟩ := by
    rw [read_at chain k last s h, readSDA_eq, emitted_append]
    simp [byteIn, bitIn, replay, Event.apply]
  have hstop : ∀ t : Bus, emitted t (stop chain k true t)
      = [Event.wait, Event.write Pin.scl true, Event.wait] ++
        chain.map (fun d => Event.write (Pin.sda d) true) ++ [Event.wait] :=
    fun t => emitted_ext _ _ _ (stop_extends chain k t h)
  refine ⟨?_, hw, ?_, hr, ?_, ?_, rfl, rfl⟩
  · rw [write_at chain k v s h, writeSDA_eq, emitted_append]
    simp [byteOut, bitOut, replay, Event.apply]
  · rw [read_at chain k last s h, readSDA_eq, emitted_append]
    simp [byteIn, bitIn, replay, Event.apply]
  · rw [hstop]
    exact levelsAfter_stop chain _ _ (by simp) (by rw [hw])
  · rw [hstop]
    exact levelsAfter_stop chain _ _ (by simp) (by rw [hr])

theorem byte_primitive_post_state_witness :
    replay (emitted ⟨[], fun _ => false⟩ (write [4, 7] 1 0xA5 ⟨[], fun _ => false⟩).2)
      (fun _ => ⟨false, false⟩) (Pin.sda 7) = ⟨true, true⟩ ∧
    (replay (emitted ⟨[], fun _ => false⟩ (read [4, 7] 1 false ⟨[], fun _ => false⟩).2)
      (fun _ => ⟨false, true⟩) Pin.scl).level = false := by
  have h := byte_primitive_post_state [4, 7] 1 0x50 0xA5 false ⟨[], fun _ => false⟩
    (fun _ => ⟨false, false⟩) (by decide)
  have g := byte_primitive_post_state [4, 7] 1 0x50 0xA5 false ⟨[], fun _ => false⟩
    (fun _ => ⟨false, true⟩) (by decide)
  exact ⟨h.2.1, g.2.2.1⟩

/-! ## Delays around the clock pulses -/

/-- C16 as stated fails: in `write(0, 0xA5)` on the chain with the single data pin 0,
the low half before the ninth raising of the clock holds no delay: the clock is lowered
at the end of the eighth bit (event 40) and raised again for the acknowledgment (event
43) with only a level write and a direction change of the data pin in between, so the
numbers of delays in the nine low halves are 1, 1, 1, 1, 1, 1, 1, 1, 0. -/
theorem write_ack_pulse_without_low_delay :
    (lowHalves (emitted ⟨[], fun _ => false⟩
        (write [0] 0 0xA5 ⟨[], fun _ => false⟩).2)).map (List.count Event.wait)
      = [1, 1, 1, 1, 1, 1, 1, 1, 0] ∧
    ((emitted ⟨[], fun _ => false⟩
        (write [0] 0 0xA5 ⟨[], fun _ => false⟩).2).drop 39).take 4
      = [Event.write Pin.scl false, Event.write (Pin.sda 0) true,
         Event.direction (Pin.sda 0) false, Event.write Pin.scl true] ∧
    (lowHalves (emitted ⟨[], fun _ => false⟩
        (write [0] 0 0xA5 ⟨[], fun _ => false⟩).2)).map (List.count Event.wait)
      ≠ List.replicate 9 1 := by
  rw [write_at [0] 0 0xA5 _ (by decide), writeSDA_eq, emitted_mk]
  simp [byteOut, bitOut, lowHalves, lowHalvesFrom, List.replicate]

/-- C16, amended: on a chain with `k < N`, each of the nine clock pulses of
`write(k, v)` and of `read(k, last)` holds exactly one delay while the clock is high;
exactly one delay lies in the low half before each of the first eight raisings of the
clock in `write(k, v)`; and in `read(k, last)` exactly one delay lies in the low half
before each of the raisings two to nine. -/
theorem pulse_delays (chain : List Nat) (k v : Nat) (last : Bool) (s : Bus)
    (h : k < chain.length) :
    (pulses (emitted s (write chain k v s).2)).map (List.count Event.wait)
      = List.replicate 9 1 ∧
    (pulses (emitted s (read chain k last s).2)).map (List.count Event.wait)
      = List.replicate 9 1 ∧
    ((lowHalves (emitted s (write chain k v s).2)).take 8).map (List.count Event.wait)
      = List.replicate 8 1 ∧
    (lowHalves (emitted s (read chain k last s).2)).length = 9 ∧
    ((lowHalves (emitted s (read chain k last s).2)).drop 1).map (List.count Event.wait)
      = List.replicate 8 1 := by
  rw [write_at chain k v s h, writeSDA_eq, read_at chain k last s h, readSDA_eq,
    emitted_append, emitted_append]
  simp [byteOut, bitOut, byteIn, bitIn, pulses, lowHalves, lowHalvesFrom, List.replicate]

theorem pulse_delays_witness :
    (pulses (emitted ⟨[], fun _ => false⟩
        (write [4, 7] 1 0xA5 ⟨[], fun _ => false⟩).2)).map (List.count Event.wait)
      = [1, 1, 1, 1, 1, 1, 1, 1, 1] ∧
    ((lowHalves (emitted ⟨[], fun _ => false⟩
        (read [4, 7] 1 true ⟨[], fun _ => false⟩).2)).drop 1).map (List.count Event.wait)
      = [1, 1, 1, 1, 1, 1, 1, 1] := by
  have h := pulse_delays [4, 7] 1 0xA5 true ⟨[], fun _ => false⟩ (by decide)
  exact ⟨h.1, h.2.2.2.2⟩

/-! ## No reaction to the peer -/

theorem blind_of_eq (f : Bus → Bus) (evs : Bus → List Event)
    (h : ∀ s, (f s).trace = s.trace ++ evs s)
    (hq : ∀ s t, (evs s).map Event.blank = (evs t).map Event.blank) :
    Blind f := by
  intro s t
  rw [emitted_ext s (f s) (evs s) (h s), emitted_ext t (f t) (evs t) (h t)]
  exact ⟨h s, hq s t⟩

theorem blind_comp (f g : Bus → Bus) (hf : Blind f) (hg : Blind g) :
    Blind (fun s => g (f s)) := by
  have key : ∀ s, emitted s (g (f s)) = emitted s (f s) ++ emitted (f s) (g (f s)) :=
    fun s => emitted_trans s (f s) (g (f s)) _ _ (hf s s).1 (hg (f s) (f s)).1
  intro s t
  refine ⟨?_, ?_⟩
  · show (g (f s)).trace = s.trace ++ emitted s (g (f s))
    rw [key s, (hg (f s) (f s)).1, (hf s s).1, List.append_assoc]
  · show (emitted s (g (f s))).map Event.blank = (emitted t (g (f t))).map Event.blank
    rw [key s, key t, List.map_append, List.map_append, (hf s t).2, (hg (f s) (f t)).2]

theorem quiet_map_blank (evs : List Event) : quiet (evs.map Event.blank) = quiet evs := by
  induction evs with
  | nil => rfl
  | cons e evs ih =>
    cases e with
    | write p level => exact congrArg (List.cons (Event.write p level)) ih
    | direction p output => exact congrArg (List.cons (Event.direction p output)) ih
    | sample p level => exact ih
    | wait => exact congrArg (List.cons Event.wait) ih

theorem quiet_of_blank (evs evs' : List Event)
    (h : evs.map Event.blank = evs'.map Event.blank) : quiet evs = quiet evs' := by
  rw [← quiet_map_blank evs, h, quiet_map_blank]

theorem blank_byteOut (sda v : Nat) (ack ack' : Bool) :
    (byteOut sda v ack).map Event.blank = (byteOut sda v ack').map Event.blank := by
  simp [byteOut, bitOut, Event.blank]

theorem blank_byteIn (sda : Nat) (last : Bool) (line line' : Nat → Bool) :
    (byteIn sda last line).map Event.blank = (byteIn sda last line').map Event.blank := by
  simp [byteIn, bitIn, Event.blank]

theorem write_blind (chain : List Nat) (k v : Nat) :
    Blind (fun s => (write chain k v s).2) := by
  by_cases h : k < chain.length
  · refine blind_of_eq _ (fun s => byteOut chain[k] v (s.line 0)) ?_ ?_
    · intro s
      simp only [write_at chain k v s h, writeSDA_eq]
    · intro s t
      exact blank_byteOut _ _ _ _
  · refine blind_of_eq _ (fun _ => []) ?_ (fun _ _ => rfl)
    intro s
    simp only [write_beyond chain k v s (Nat.le_of_not_lt h), List.append_nil]

theorem read_blind (chain : List Nat) (k : Nat) (last : Bool) :
    Blind (fun s => (read chain k last s).2) := by
  by_cases h : k < chain.length
  · refine blind_of_eq _ (fun s => byteIn chain[k] last s.line) ?_ ?_
    · intro s
      simp only [read_at chain k last s h, readSDA_eq]
    · intro s t
      exact blank_byteIn _ _ _ _
  · refine blind_of_eq _ (fun _ => []) ?_ (fun _ _ => rfl)
    intro s
    simp only [read_beyond chain k last s (Nat.le_of_not_lt h), List.append_nil]

theorem setValue_blind (p : Pin) (level : Bool) : Blind (setValue p level) :=
  blind_of_eq _ (fun _ => [Event.write p level]) (fun _ => rfl) (fun _ _ => rfl)

theorem delay_blind : Blind delay :=
  blind_of_eq _ (fun _ => [Event.wait]) (fun _ => rfl) (fun _ _ => rfl)

theorem id_blind : Blind (fun s => s) :=
  blind_of_eq _ (fun _ => []) (fun _ => (List.append_nil _).symm) (fun _ _ => rfl)

theorem setSDA_blind (chain : List Nat) (value : Bool) : Blind (setSDA chain value) :=
  blind_of_eq _ (fun _ => chain.map (fun d => Event.write (Pin.sda d) value))
    (fun s => by rw [setSDA_eq]) (fun _ _ => rfl)

theorem writeSDA_blind (sda v : Nat) : Blind (fun s => (writeSDA sda v s).2) :=
  blind_of_eq _ (fun s => byteOut sda v (s.line 0)) (fun s => by rw [writeSDA_eq])
    (fun _ _ => blank_byteOut _ _ _ _)

theorem startSDA_blind (sda a : Nat) : Blind (fun s => (startSDA sda a s).2) :=
  blind_comp _ _ (setValue_blind Pin.scl false) (writeSDA_blind sda a)

theorem stopSDA_blind : Blind stopSDA :=
  blind_comp (fun s => setValue Pin.scl true (delay s)) delay
    (blind_comp delay (setValue Pin.scl true) delay_blind (setValue_blind Pin.scl true))
    delay_blind

theorem start_blind (chain : List Nat) (k a : Nat) (isFirst : Bool) :
    Blind (fun s => (start chain k a isFirst s).2) := by
  by_cases h : k < chain.length
  · cases isFirst with
    | false =>
      have e : (fun s => (start chain k a false s).2) = fun s => (startSDA chain[k] a s).2 :=
        funext fun s => by rw [start_inner chain k a s h]
      rw [e]
      exact startSDA_blind _ _
    | true =>
      have e : (fun s => (start chain k a true s).2)
          = fun s => (startSDA chain[k] a (setSDA chain false s)).2 :=
        funext fun s => by rw [start_outer chain k a s h]
      rw [e]
      exact blind_comp _ _ (setSDA_blind chain false) (startSDA_blind _ _)
  · have hc := Nat.le_of_not_lt h
    cases isFirst with
    | false =>
      have e : (fun s => (start chain k a false s).2) = fun s => s :=
        funext fun s => by rw [start_inner_beyond chain k a s hc]
      rw [e]
      exact id_blind
    | true =>
      have e : (fun s => (start chain k a true s).2) = setSDA chain false :=
        funext fun s => by rw [start_outer_beyond chain k a s hc]
      rw [e]
      exact setSDA_blind chain false

theorem stop_blind (chain : List Nat) (k : Nat) (isFirst : Bool) :
    Blind (stop chain k isFirst) := by
  cases chain with
  | nil => exact id_blind
  | cons d rest =>
    by_cases h : k < (d :: rest).length
    · cases isFirst with
      | false =>
        have e : stop (d :: rest) k false = stopSDA :=
          funext fun s => stop_inner (d :: rest) k s h
        rw [e]
        exact stopSDA_blind
      | true =>
        have e : stop (d :: rest) k true = fun s => delay (setSDA (d :: rest) true (stopSDA s)) :=
          funext fun s => stop_outer (d :: rest) k s h
        rw [e]
        exact blind_comp _ _ (blind_comp _ _ stopSDA_blind (setSDA_blind _ true)) delay_blind
    · have hc := Nat.le_of_not_lt h
      cases isFirst with
      | false =>
        have e : stop (d :: rest) k false = fun s => s :=
          funext fun s => stop_inner_beyond (d :: rest) k s hc
        rw [e]
        exact id_blind
      | true =>
        have e : stop (d :: rest) k true = fun s => delay (setSDA (d :: rest) true s) :=
          funext fun s => stop_outer_beyond (d :: rest) k s hc (by simp)
        rw [e]
        exact blind_comp _ _ (setSDA_blind _ true) delay_blind

theorem init_blind (chain : List Nat) (isFirst : Bool) : Blind (init chain isFirst) :=
  blind_of_eq _ (fun _ => chain.reverse.flatMap
      (fun d => [Event.direction (Pin.sda d) true, Event.write (Pin.sda d) true]) ++
    if isFirst ∧ chain ≠ [] then
      [Event.direction Pin.scl true, Event.write Pin.scl true, Event.wait]
    else [])
    (fun s => by rw [init_eq]) (fun _ _ => rfl)

theorem writeByte_blind (chain : List Nat) (k a v : Nat) :
    Blind (fun s => (writeByte chain k a v s).2) :=
  blind_comp _ _ (blind_comp _ _ (start_blind chain k _ true) (write_blind chain k v))
    (stop_blind chain k true)

theorem readByte_blind (chain : List Nat) (k a : Nat) :
    Blind (fun s => (readByte chain k a s).2) :=
  blind_comp _ _ (blind_comp _ _ (start_blind chain k _ true) (read_blind chain k true))
    (stop_blind chain k true)

theorem restart_blind (chain : List Nat) (k a : Nat) (s t : Bus) :
    (restart chain k a s).map (fun r => quiet (emitted s r.2))
      = (restart chain k a t).map (fun r => quiet (emitted t r.2)) := by
  by_cases h : k < chain.length
  · rw [restart_at chain k a s h, restart_at chain k a t h]
    have hb := blind_comp _ _ (setValue_blind Pin.scl true) (startSDA_blind chain[k] a)
    simp only [Option.map_some']
    exact congrArg some (quiet_of_blank _ _ (hb s t).2)
  · rw [restart_beyond chain k a s (Nat.le_of_not_lt h),
      restart_beyond chain k a t (Nat.le_of_not_lt h)]
    rfl

end SoftPot

namespace SoftSPI

theorem spi_quiet_map_blank (evs : List Event) : quiet (evs.map Event.blank) = quiet evs := by
  induction evs with
  | nil => rfl
  | cons e evs ih =>
    cases e with
    | write p level => exact congrArg (List.cons (Event.write p level)) ih
    | direction p output => exact congrArg (List.cons (Event.direction p output)) ih
    | sample p level => exact ih

theorem spi_quiet_of_blank (evs evs' : List Event)
    (h : evs.map Event.blank = evs'.map Event.blank) : quiet evs = quiet evs' := by
  rw [← spi_quiet_map_blank evs, h, spi_quiet_map_blank]

theorem transfer_blank (Mode d : Nat) (s t : Bus) :
    (emitted s (transfer Mode d s).2).map Event.blank
      = (emitted t (transfer Mode d t).2).map Event.blank := by
  rw [transfer_eq, transfer_eq, spi_emitted_append, spi_emitted_append]
  cases hA : MODE_CPHA Mode <;> simp [transferCell, hA, Event.blank]

theorem receive_blank (Mode : Nat) (s t : Bus) :
    (emitted s (receive Mode s).2).map Event.blank
      = (emitted t (receive Mode t).2).map Event.blank := by
  rw [receive_eq, receive_eq, spi_emitted_append, spi_emitted_append]
  cases hA : MODE_CPHA Mode <;> simp [receiveCell, hA, Event.blank]

theorem send_same (Mode d : Nat) (s t : Bus) :
    emitted s (send Mode d s) = emitted t (send Mode d t) := by
  rw [send_eq, send_eq, spi_emitted_append, spi_emitted_append]

end SoftSPI

namespace SoftPot

/-- C18: for every operation of both engines and fixed arguments, the pin writes,
direction changes and delays appended from the bus `s` and from the bus `t` (any two
buses, so any two streams of sampled levels) are the same sequence: two-wire `init`,
`start`, `restart`, `stop`, `write`, `read`, `writeByte`, `readByte` for every chain,
channel index and flag, and serial-clock `send`, `receive`, `transfer` for every mode.
For `writeByte` and `readByte` the whole event sequences agree up to the levels recorded
in the samples, so they have the same length: a not-acknowledge on the address byte
neither alters nor shortens the transaction. -/
theorem blind_to_peer (chain : List Nat) (k a v Mode d : Nat) (isFirst last : Bool)
    (s t : Bus) (u w : SoftSPI.Bus) :
    quiet (emitted s (init chain isFirst s)) = quiet (emitted t (init chain isFirst t)) ∧
    quiet (emitted s (start chain k a isFirst s).2)
      = quiet (emitted t (start chain k a isFirst t).2) ∧
    (restart chain k a s).map (fun r => quiet (emitted s r.2))
      = (restart chain k a t).map (fun r => quiet (emitted t r.2)) ∧
    quiet (emitted s (stop chain k isFirst s)) = quiet (emitted t (stop chain k isFirst t)) ∧
    quiet (emitted s (write chain k v s).2) = quiet (emitted t (write chain k v t).2) ∧
    quiet (emitted s (read chain k last s).2) = quiet (emitted t (read chain k last t).2) ∧
    quiet (emitted s (writeByte chain k a v s).2)
      = quiet (emitted t (writeByte chain k a v t).2) ∧
    quiet (emitted s (readByte chain k a s).2) = quiet (emitted t (readByte chain k a t).2) ∧
    (emitted s (writeByte chain k a v s).2).map Event.blank
      = (emitted t (writeByte chain k a v t).2).map Event.blank ∧
    (emitted s (readByte chain k a s).2).map Event.blank
      = (emitted t (readByte chain k a t).2).map Event.blank ∧
    (emitted s (writeByte chain k a v s).2).length
      = (emitted t (writeByte chain k a v t).2).length ∧
    (emitted s (readByte chain k a s).2).length
      = (emitted t (readByte chain k a t).2).length ∧
    SoftSPI.quiet (SoftSPI.emitted u (SoftSPI.send Mode d u))
      = SoftSPI.quiet (SoftSPI.emitted w (SoftSPI.send Mode d w)) ∧
    SoftSPI.quiet (SoftSPI.emitted u (SoftSPI.receive Mode u).2)
      = SoftSPI.quiet (SoftSPI.emitted w (SoftSPI.receive Mode w).2) ∧
    SoftSPI.quiet (SoftSPI.emitted u (SoftSPI.transfer Mode d u).2)
      = SoftSPI.quiet (SoftSPI.emitted w (SoftSPI.transfer Mode d w).2) := by
  have hw := (writeByte_blind chain k a v s t).2
  have hr := (readByte_blind chain k a s t).2
  refine ⟨quiet_of_blank _ _ (init_blind chain isFirst s t).2,
    quiet_of_blank _ _ (start_blind chain k a isFirst s t).2,
    restart_blind chain k a s t,
    quiet_of_blank _ _ (stop_blind chain k isFirst s t).2,
    quiet_of_blank _ _ (write_blind chain k v s t).2,
    quiet_of_blank _ _ (read_blind chain k last s t).2,
    quiet_of_blank _ _ hw, quiet_of_blank _ _ hr, hw, hr, ?_, ?_, ?_,
    SoftSPI.spi_quiet_of_blank _ _ (SoftSPI.receive_blank Mode u w),
    SoftSPI.spi_quiet_of_blank _ _ (SoftSPI.transfer_blank Mode d u w)⟩
  · simpa using congrArg List.length hw
  · simpa using congrArg List.length hr
  · rw [SoftSPI.send_same Mode d u w]

end SoftPot
